import Mathlib

/-!
# A verification development for `crawler.go`

A shallow embedding of the single-domain web crawler of `crawler.go`:
the URL helper `SameDomain`, the page fetcher `GetUri`, and the crawl
engine (`Crawl`, `Start`, `crawlDeferred`) as a transition system over
the shared `Crawler` record.

Conventions.

* A Go `string` is a `GoString`, a list of characters.
* A Go map is an association list with unique keys (`mapGet`, `mapSet`).
* A Go runtime panic is the `none` of an `Option` (or the error of an
  `Except` where the message matters).
* The results of calls that leave the program (`http.NewRequest`,
  `client.Do`, the HTML tokenizer behind `ExtractLinks`) are parameters.
* A goroutine running `Crawl` takes one step per access to the shared
  crawler: the receive of line 140; the fetch with the read of `c.Running`
  at line 143; one step per round of the loop of lines 147-156, each under
  the mutex; the write of line 160; the test of line 161; the write of line
  163; the send of line 166 with the return.  Any goroutine of the
  WaitGroup may take the next step, so the steps of different goroutines
  interleave as far as the semaphore allows.
-/

namespace WebCrawler

/-- A Go string: the sequence of its characters. -/
abbrev GoString := List Char

/-! ## The `strings` package, as far as `crawler.go` uses it -/

/-- Go `strings.HasPrefix(s, pre)`. -/
def HasPrefix (s pre : GoString) : Bool :=
  pre.isPrefixOf s

/-- One round of the loop of Go `strings.SplitAfter` for a non-empty
separator: find the first occurrence of `sep` in `s` (`strings.Index`) and
cut right after it; `none` when `sep` does not occur. -/
def cutAfter (sep : GoString) : GoString → Option (GoString × GoString)
  | [] => none
  | c :: t =>
    if sep.isPrefixOf (c :: t) then some (sep, (c :: t).drop sep.length)
    else (cutAfter sep t).map (fun p => (c :: p.1, p.2))

/-- The loop of Go `genSplit`: cut after each occurrence of `sep` in turn;
the last piece is what is left.  The first argument bounds the number of
rounds. -/
def splitAfterLoop (sep : GoString) : Nat → GoString → List GoString
  | 0, s => [s]
  | n + 1, s =>
    match cutAfter sep s with
    | none => [s]
    | some (a, rest) => a :: splitAfterLoop sep n rest

/-- Go `strings.SplitAfter(s, sep)`.  With an empty separator Go splits
after every character; otherwise it cuts after every occurrence of `sep`.
Each round consumes at least one character, so `s.length` rounds are
enough. -/
def SplitAfter (s sep : GoString) : List GoString :=
  if sep = [] then s.map (fun c => [c])
  else splitAfterLoop sep s.length s

/-! ## The data model (`crawler.go`, lines 19-34) -/

/-- Go `m[k]` on a map: the value stored under `k`, if any. -/
def mapGet {β : Type} (m : List (GoString × β)) (k : GoString) : Option β :=
  match m with
  | [] => none
  | (a, b) :: rest => if a = k then some b else mapGet rest k

/-- Go `m[k] = v` on a map: replace the value under `k`, or add the key. -/
def mapSet {β : Type} (m : List (GoString × β)) (k : GoString) (v : β) :
    List (GoString × β) :=
  match m with
  | [] => [(k, v)]
  | (a, b) :: rest => if a = k then (k, v) :: rest else (a, b) :: mapSet rest k v

/-- The keys of a Go map. -/
def mapKeys {β : Type} (m : List (GoString × β)) : List GoString :=
  m.map (fun e => e.1)

/-- The Go struct `Page`. -/
structure Page where
  Assets : List GoString
  Links : List GoString
  Parent : GoString
deriving DecidableEq

/-- The buffered channel `c.Sem`: how many values it holds and its
capacity. -/
structure Chan where
  len : Nat
  cap : Nat
deriving DecidableEq

/-- Where a goroutine running `Crawl` stands.
* `waiting`: before the receive of line 140.
* `fetching`: holding a permit, before `GetUri` has returned and line 143
  has read `c.Running`.
* `visiting page rest`: in the loop of lines 147-156 over the links of
  `page`, the links `rest` still to come.
* `deferring`: in the else branch, before the write of line 160.
* `testing`: before the test of line 161.
* `writing`: the test of line 161 passed, before the write of line 163.
* `releasing`: before the send of line 166. -/
inductive Stage where
  | waiting
  | fetching
  | visiting (page : Page) (rest : List GoString)
  | deferring
  | testing
  | writing
  | releasing
deriving DecidableEq

/-- A goroutine running `c.Crawl(uri, parent)` that `c.wg` counts. -/
structure Goroutine where
  uri : GoString
  parent : GoString
  stage : Stage
deriving DecidableEq

/-- The Go struct `Crawler`.  `wg` is the WaitGroup, kept as the list of
the goroutines it counts; the mutex is the atomicity of one round of the
loop of lines 147-156. -/
structure Crawler where
  Sitemap : List (GoString × Page)
  Deferred : List (GoString × GoString)
  Sem : Chan
  Root : GoString
  MaxRoutines : Int
  wg : List Goroutine
  Running : Bool
deriving DecidableEq

/-! ## `SameDomain` (lines 90-107) -/

/-- The `switch` of `SameDomain` (lines 93-104): strip the first matching
scheme / `www.` variant from `link`.  `xs[1]` panics when `xs` has fewer
than two elements. -/
def stripLink (link : GoString) : Option GoString :=
  if HasPrefix link "http://www.".toList then (SplitAfter link "http://www.".toList)[1]?
  else if HasPrefix link "https://www.".toList then (SplitAfter link "https://www.".toList)[1]?
  else if HasPrefix link "http://".toList then (SplitAfter link "http://".toList)[1]?
  else if HasPrefix link "https://".toList then (SplitAfter link "https://".toList)[1]?
  else if HasPrefix link "www.".toList then (SplitAfter link "www.".toList)[1]?
  else some link

/-- The method `SameDomain`; `none` is the index-out-of-range panic. -/
def Crawler.SameDomain (c : Crawler) (link : GoString) : Option Bool :=
  match stripLink link with
  | none => none
  | some link =>
    match (SplitAfter c.Root "www.".toList)[1]? with
    | none => none
    | some base => some (HasPrefix link base)

/-- The crawler literal of `main` (lines 209-212) and of `TestCrawlerStop`:
empty maps, the given root and concurrency, every other field zero. -/
def Crawler.new (Root : GoString) (MaxRoutines : Int) : Crawler :=
  { Sitemap := [], Deferred := [], Sem := ⟨0, 0⟩, Root := Root,
    MaxRoutines := MaxRoutines, wg := [], Running := false }

/-! ## `GetUri` (lines 47-67) -/

/-- What this program touches of a Go `*http.Request`. -/
structure Request where
  Method : GoString
  URL : GoString
  Close : Bool
  Header : List (GoString × GoString)
deriving DecidableEq

/-- What this program touches of a Go `*http.Response`. -/
structure Response where
  StatusCode : Int
  Body : GoString
deriving DecidableEq

/-- The request as `GetUri` hands it to the transport: `Close` set (line
51) and the two headers added (lines 57-58). -/
def sentRequest (req : Request) : Request :=
  { req with
    Close := true
    Header := req.Header ++
      [("Connection".toList, "close".toList), ("Accept-Encoding".toList, "identity".toList)] }

/-- The function `GetUri`.  `NewRequest` stands for `http.NewRequest` and
`Do` for `client.Do`; each returns a Go pair (pointer, error), a `none`
pointer being `nil` and a `none` error being `nil`.  The result is the
returned pair, or the message of the runtime panic: line 51 writes
`req.Close` before line 52 looks at `reqErr`, so a nil `req` panics.  The
delay of line 48 has no effect on the result. -/
def GetUri (NewRequest : GoString → GoString → Option Request × Option GoString)
    (Do : Request → Option Response × Option GoString) (uri : GoString) :
    Except String (Bool × Option Response) :=
  match NewRequest "GET".toList uri with
  | (none, _) => .error "invalid memory address or nil pointer dereference"
  | (some req, reqErr) =>
    if reqErr.isSome then .ok (false, none)
    else
      match Do (sentRequest req) with
      | (res, resErr) =>
        if resErr.isSome then .ok (false, none)
        else .ok (true, res)

/-! ## The crawl engine (lines 138-196) -/

/-- What the crawled site serves: for every URL the link set and the asset
set that `ExtractLinks` finds on its page. -/
structure World where
  links : GoString → List GoString
  assets : GoString → List GoString

/-- One step of a goroutine of `c.wg`, the goroutine at index `i`.
* `acquire i`: the receive from `c.Sem` (line 140).
* `fetch i ret links`: lines 141-146.  `ret` is what `GetUri` returned;
  line 143 reads `c.Running`; `links` is the order in which the `range` of
  line 147 will yield the links that `ExtractLinks` found.
* `visit i`: one round of the loop of lines 147-156, between `Lock` and
  `Unlock`; with no link left, leaving the loop (line 157).
* `clear i`: the write `c.Running = false` of line 160.
* `test i`: the test of line 161.
* `write i`: the write `c.Deferred[uri] = parent` of line 163.
* `release i`: the send to `c.Sem` (line 166) and the return; the deferred
  `c.wg.Done()` of line 139 takes the goroutine out of the WaitGroup. -/
inductive Event where
  | acquire (i : Nat)
  | fetch (i : Nat) (ret : Bool) (links : List GoString)
  | visit (i : Nat)
  | clear (i : Nat)
  | test (i : Nat)
  | write (i : Nat)
  | release (i : Nat)
deriving DecidableEq

/-- The goroutine that takes the step. -/
def Event.idx : Event → Nat
  | .acquire i => i
  | .fetch i _ _ => i
  | .visit i => i
  | .clear i => i
  | .test i => i
  | .write i => i
  | .release i => i

/-- The method `Crawl(uri, parent)` as the goroutine `g` runs it, one
access to the shared crawler at a time: the effect of the step `e` of `g`,
`none` when `g` is not at that step, the receive finds the channel empty,
the send finds it full, or `links` is not an ordering of the links of the
page.

A round of the loop (lines 148-155) is one step: the mutex keeps the rounds
of other goroutines out, and the unlocked lines 160-163 of other goroutines
write neither `Sitemap` nor the WaitGroup, so they cannot come between the
read of line 149 and the write of line 153 with any effect. -/
def Crawler.Crawl (W : World) (c : Crawler) (g : Goroutine) : Event → Option Crawler
  | .acquire i =>
    if g.stage = .waiting ∧ 0 < c.Sem.len then
      some { c with Sem := { c.Sem with len := c.Sem.len - 1 }
                    wg := c.wg.set i { g with stage := .fetching } }
    else none
  | .fetch i ret links =>
    if g.stage = .fetching ∧ links.Perm (W.links g.uri) then
      if ret && c.Running then
        some { c with wg := c.wg.set i { g with
          stage := .visiting ⟨W.assets g.uri, links, g.parent⟩ links } }
      else
        some { c with wg := c.wg.set i { g with stage := .deferring } }
    else none
  | .visit i =>
    match g.stage with
    | .visiting _ [] =>
      some { c with wg := c.wg.set i { g with stage := .releasing } }
    | .visiting page (link :: rest) =>
      if (mapGet c.Sitemap link).isNone then
        some { c with wg := c.wg.set i { g with stage := .visiting page rest } ++
                        [⟨link, g.uri, .waiting⟩]
                      Sitemap := mapSet c.Sitemap g.uri page }
      else
        some { c with wg := c.wg.set i { g with stage := .visiting page rest } }
    | _ => none
  | .clear i =>
    if g.stage = .deferring then
      some { c with Running := false
                    wg := c.wg.set i { g with stage := .testing } }
    else none
  | .test i =>
    if g.stage = .testing then
      if (mapGet c.Deferred g.uri).getD [] = [] ∧ (mapGet c.Sitemap g.uri).isNone then
        some { c with wg := c.wg.set i { g with stage := .writing } }
      else
        some { c with wg := c.wg.set i { g with stage := .releasing } }
    else none
  | .write i =>
    if g.stage = .writing then
      some { c with Deferred := mapSet c.Deferred g.uri g.parent
                    wg := c.wg.set i { g with stage := .releasing } }
    else none
  | .release i =>
    if g.stage = .releasing ∧ c.Sem.len < c.Sem.cap then
      some { c with Sem := { c.Sem with len := c.Sem.len + 1 }
                    wg := c.wg.eraseIdx i }
    else none

/-- One scheduling step: the goroutine that the event names takes its next
step of `Crawl`. -/
def step (W : World) (c : Crawler) (e : Event) : Option Crawler :=
  match c.wg[e.idx]? with
  | none => none
  | some g => c.Crawl W g e

/-- A schedule: the events taken in turn; `none` when one of them cannot
be taken. -/
def run (W : World) : Crawler → List Event → Option Crawler
  | c, [] => some c
  | c, e :: es =>
    match step W c e with
    | none => none
    | some c1 => run W c1 es

/-- The loop of lines 176-178: `n` sends into the fresh channel. -/
def fillSem : Nat → Chan → Chan
  | 0, ch => ch
  | n + 1, ch => fillSem n { ch with len := ch.len + 1 }

/-- The tests `&c.wg == nil` and `&c.Root == nil` of line 171: the address
of a field of the receiver is never nil. -/
def fieldAddrIsNil : Bool := false

/-- The method `Start` up to and including `go c.Crawl(c.Root, "")` (lines
170-181); the `c.wg.Wait()` of line 182 returns once a schedule has emptied
`wg`.  The error is the message of the panic: that of line 172, or that of
`make` for a negative capacity. -/
def Crawler.Start (c : Crawler) : Except String Crawler :=
  let c := { c with Running := true }
  if fieldAddrIsNil || fieldAddrIsNil || c.MaxRoutines = 0 then
    .error "Crawler fields not set."
  else if c.MaxRoutines < 0 then
    .error "makechan: size out of range"
  else
    let c := { c with Sem := fillSem c.MaxRoutines.toNat ⟨0, c.MaxRoutines.toNat⟩ }
    .ok { c with wg := c.wg ++ [⟨c.Root, [], .waiting⟩] }

/-- The loop of lines 190-194 over the entries of `Deferred`: start
`Crawl(url, parent)` and wait (line 193) until the schedule given for it
has emptied the WaitGroup. -/
def retryLoop (W : World) :
    List (GoString × GoString) → List (List Event) → Crawler → Option Crawler
  | [], _, c => some c
  | _ :: _, [], _ => none
  | (url, parent) :: rest, sched :: more, c =>
    match run W { c with wg := c.wg ++ [⟨url, parent, .waiting⟩] } sched with
    | none => none
    | some c1 => if c1.wg = [] then retryLoop W rest more c1 else none

/-- The method `crawlDeferred` (lines 185-196), with one schedule per
retried entry.  The `range` visits the entries that `Deferred` holds when
the loop starts, in the order they are stored (Go leaves the order open,
and leaves open whether an entry added during the loop is visited). -/
def Crawler.crawlDeferred (W : World) (c : Crawler) (scheds : List (List Event)) :
    Option Crawler :=
  let c := { c with Running := true }
  retryLoop W c.Deferred scheds c

/-- The method `Start` in full: lines 170-181, then the `c.wg.Wait()` of
line 182 under the schedule `sched`, which has to empty the WaitGroup.
`none` when `Start` panics or the schedule does not run to that point. -/
def Crawler.StartWait (W : World) (c : Crawler) (sched : List Event) : Option Crawler :=
  match c.Start with
  | .error _ => none
  | .ok c0 =>
    match run W c0 sched with
    | none => none
    | some s => if s.wg = [] then some s else none

/-! ## Sample sites -/

/-- Page A of the samples, the root. -/
def urlA : GoString := "https://www.example.com".toList

/-- Page B of the samples. -/
def urlB : GoString := "https://www.example.com/b".toList

/-- Page C of the samples. -/
def urlC : GoString := "https://www.example.com/c".toList

/-- The three-page cycle A -> B -> C -> A. -/
def cycleWorld : World :=
  { links := fun u =>
      if u = urlA then [urlB] else if u = urlB then [urlC]
      else if u = urlC then [urlA] else []
    assets := fun _ => [] }

/-- Page D of the samples. -/
def urlD : GoString := "https://www.example.com/d".toList

/-- The goroutine at index 0 run from the receive to the return without
another goroutine in between, its fetch succeeding and its page carrying
the links `ls`: one round of the loop per link, then the exit. -/
def oneUnit (ls : List GoString) : List Event :=
  [.acquire 0, .fetch 0 true ls] ++ List.replicate (ls.length + 1) (.visit 0) ++ [.release 0]

/-- The goroutine at index 0 run from the receive to the return without
another goroutine in between, on the deferral branch (its fetch failing, or
`Running` cleared), the test of line 161 passing. -/
def deferredUnit (ret : Bool) (ls : List GoString) : List Event :=
  [.acquire 0, .fetch 0 ret ls, .clear 0, .test 0, .write 0, .release 0]

/-- The schedule of the cycle: A, then B, then C. -/
def cycleSchedule : List Event :=
  oneUnit [urlB] ++ oneUnit [urlC] ++ oneUnit [urlA]

/-- A site where A links to B and C, B links to C, and C links to D. -/
def raceWorld : World :=
  { links := fun u =>
      if u = urlA then [urlB, urlC] else if u = urlB then [urlC]
      else if u = urlC then [urlD] else []
    assets := fun _ => [] }

/-- A schedule of the main pass on `raceWorld` with two permits.  A and B
run; each starts a goroutine for C.  The first of them fetches C and passes
line 143; the second then fails its fetch, clears `Running` and defers C;
the first then finds the new link D and stores C.  The rest runs to the
end, D being deferred. -/
def raceSchedule : List Event :=
  oneUnit [urlB, urlC] ++ oneUnit [urlC] ++
  [.acquire 0, .fetch 0 true [urlD]] ++
  [.acquire 1, .fetch 1 false [urlD], .clear 1, .test 1, .write 1] ++
  [.visit 0, .visit 0, .release 0, .release 0] ++
  deferredUnit true []

/-! ## Definitions used to state the claims and their proofs -/

/-- The first piece that `SplitAfter` yields for `s`: `s` up to and
including the first occurrence of `sep`, or all of `s`. -/
def firstPiece (sep s : GoString) : GoString :=
  match cutAfter sep s with
  | some p => p.1
  | none => s

/-- Whether `u` is a key of `c.Sitemap`, as line 149 tests it. -/
def inSitemap (c : Crawler) (u : GoString) : Bool :=
  (mapGet c.Sitemap u).isSome

/-- The crawler as `Start` leaves it at the `c.wg.Wait()` of line 182, when
it does not panic: `Running` set, the channel full, one goroutine for the
root. -/
def started (c : Crawler) : Crawler :=
  { c with Running := true
           Sem := ⟨c.MaxRoutines.toNat, c.MaxRoutines.toNat⟩
           wg := [⟨c.Root, [], .waiting⟩] }

/-- What a goroutine counts for among the holders of a permit: one when it
is past the receive of line 140. -/
def holds (g : Goroutine) : Nat :=
  if g.stage = .waiting then 0 else 1

/-- How many goroutines hold a permit: those past the receive of line 140
that have not yet made the send of line 166. -/
def busy (c : Crawler) : Nat :=
  (c.wg.map holds).sum

/-- Every permit is either in the channel or held by a goroutine, and the
channel has capacity `n`. -/
def permitsBalanced (n : Nat) (c : Crawler) : Prop :=
  c.Sem.len + busy c = n ∧ c.Sem.cap = n

/-- How many URLs of `V` are not yet keys of `Sitemap`. -/
def unseen (V : List GoString) (c : Crawler) : Nat :=
  V.countP (fun u => !inSitemap c u)

/-- The rank of a goroutine for `u`: twice the number of unseen URLs, plus
one when `u` is already a key of `Sitemap`.  A goroutine that the loop of
lines 147-156 starts has a lower rank than the one that starts it. -/
def rank (V : List GoString) (c : Crawler) (u : GoString) : Nat :=
  2 * unseen V c + (if inSitemap c u = true then 1 else 0)

/-- A bound on the steps that a goroutine of rank `j` causes, those of the
goroutines it gives rise to included, when no page has more than `d`
links. -/
def growth (d : Nat) : Nat → Nat
  | 0 => 6
  | j + 1 => 6 + d * (1 + growth d j)

/-- The links that a goroutine in the loop of lines 147-156 has still to
visit. -/
def pending : Stage → List GoString
  | .visiting _ rest => rest
  | _ => []

/-- The number of steps that a goroutine at a stage may still cause, `r`
being its rank. -/
def stageWeight (d r : Nat) : Stage → Nat
  | .waiting => growth d r
  | .fetching => growth d r - 1
  | .visiting _ rest => 2 + rest.length * (1 + growth d (r - 1))
  | .deferring => 4
  | .testing => 3
  | .writing => 2
  | .releasing => 1

/-- The number of steps a goroutine may still cause. -/
def weight (V : List GoString) (d : Nat) (c : Crawler) (g : Goroutine) : Nat :=
  stageWeight d (rank V c g.uri) g.stage

/-- The number of steps the outstanding goroutines may still cause. -/
def potential (V : List GoString) (d : Nat) (c : Crawler) : Nat :=
  (c.wg.map (weight V d c)).sum

/-- A bound on the number of links of a page of `V`. -/
def degree (W : World) (V : List GoString) : Nat :=
  (V.map (fun u => (W.links u).length)).sum

/-- Every goroutine of the WaitGroup is for a URL of `V`, and so is every
link it has still to visit. -/
def allIn (V : List GoString) (c : Crawler) : Prop :=
  ∀ g ∈ c.wg, g.uri ∈ V ∧ ∀ l ∈ pending g.stage, l ∈ V

/-- Whether a goroutine is in the loop of lines 147-156. -/
def isVisiting : Stage → Bool
  | .visiting _ _ => true
  | _ => false

/-- What the main pass keeps true of the maps when goroutines do not
overlap.
* While `Running` is set, nothing has been deferred.
* No key of `Sitemap` is a key of `Deferred`.
* A goroutine in the loop of lines 147-156 passed line 143 with `Running`
  set, and it still is.
* A goroutine about to write `Deferred[uri]` (line 163) has a `uri` that is
  no key of `Sitemap`.
* A goroutine past line 160 has cleared `Running`. -/
def mapsInv (c : Crawler) : Prop :=
  (c.Running = true → c.Deferred = []) ∧
  (∀ u, u ∈ mapKeys c.Sitemap → u ∉ mapKeys c.Deferred) ∧
  (∀ g ∈ c.wg, isVisiting g.stage = true → c.Running = true) ∧
  (∀ g ∈ c.wg, g.stage = .writing → inSitemap c g.uri = false) ∧
  (∀ g ∈ c.wg, g.stage = .testing ∨ g.stage = .writing → c.Running = false)

/-- A `http.NewRequest` that succeeds. -/
def okNewRequest (method uri : GoString) : Option Request × Option GoString :=
  (some { Method := method, URL := uri, Close := false, Header := [] }, none)

/-- A transport that answers every request with the given status code. -/
def statusDo (code : Int) (_ : Request) : Option Response × Option GoString :=
  (some { StatusCode := code, Body := [] }, none)

/-- A transport that fails on every request. -/
def failingDo (_ : Request) : Option Response × Option GoString :=
  (none, some "unsupported protocol scheme".toList)

/-- A site where A links to B and C, B links to C, and C links nowhere. -/
def sharedLinkWorld : World :=
  { links := fun u =>
      if u = urlA then [urlB, urlC] else if u = urlB then [urlC] else []
    assets := fun _ => [] }

/-! ## Facts about the string helpers -/

/-- When `s` begins with `sep`, the cut falls right after that occurrence.
-/
theorem cutAfter_sep_append (sep r : GoString) (hsep : sep ≠ []) :
    cutAfter sep (sep ++ r) = some (sep, r) := by
  cases sep with
  | nil => exact absurd rfl hsep
  | cons a t =>
    have h1 : (a :: t).isPrefixOf (a :: (t ++ r)) = true := by
      simp
    show cutAfter (a :: t) (a :: (t ++ r)) = _
    rw [cutAfter, if_pos h1]
    simp

/-- For a string that begins with `sep`, the element at index 1 of the split
is the first piece of what follows the separator. -/
theorem splitAfter_second (sep r : GoString) (hsep : sep ≠ []) :
    (SplitAfter (sep ++ r) sep)[1]? = some (firstPiece sep r) := by
  unfold SplitAfter
  rw [if_neg hsep]
  obtain ⟨n, hn⟩ : ∃ n, (sep ++ r).length = n + 1 := by
    cases sep with
    | nil => exact absurd rfl hsep
    | cons a t => exact ⟨(t ++ r).length, rfl⟩
  rw [hn, splitAfterLoop, cutAfter_sep_append sep r hsep]
  cases n with
  | zero =>
    have hr : r = [] := by
      cases sep with
      | nil => exact absurd rfl hsep
      | cons a t =>
        simp at hn
        exact hn.2
    subst hr
    simp [splitAfterLoop, firstPiece, cutAfter]
  | succ m =>
    simp only [splitAfterLoop, firstPiece]
    cases cutAfter sep r with
    | none => simp
    | some p => simp

/-- The first piece is an initial segment of the string. -/
theorem firstPiece_isPrefix (sep s : GoString) : firstPiece sep s <+: s := by
  induction s with
  | nil => simp [firstPiece, cutAfter]
  | cons c t ih =>
    unfold firstPiece
    rw [cutAfter]
    by_cases h : sep.isPrefixOf (c :: t) = true
    · rw [if_pos h]
      exact List.isPrefixOf_iff_prefix.mp h
    · rw [if_neg h]
      unfold firstPiece at ih
      cases hc : cutAfter sep t with
      | none => simp
      | some p =>
        rw [hc] at ih
        simpa using ih

/-- When the separator holds a character that `h` lacks, no occurrence of it
ends inside `h`, so the first piece of `h ++ p` begins with `h`. -/
theorem isPrefix_firstPiece (sep h p : GoString) (c : Char) (hc : c ∈ sep) (hh : c ∉ h) :
    h <+: firstPiece sep (h ++ p) := by
  induction h with
  | nil => simp
  | cons a t ih =>
    have hh2 : c ∉ t := fun hm => hh (List.mem_cons_of_mem _ hm)
    have ih2 := ih hh2
    show (a :: t) <+: firstPiece sep (a :: (t ++ p))
    unfold firstPiece
    rw [cutAfter]
    by_cases hpre : sep.isPrefixOf (a :: (t ++ p)) = true
    · rw [if_pos hpre]
      have h1 : sep <+: (a :: t) ++ p := List.isPrefixOf_iff_prefix.mp hpre
      have h2 : (a :: t) <+: (a :: t) ++ p := List.prefix_append _ _
      rcases List.prefix_or_prefix_of_prefix h1 h2 with h3 | h3
      · exact absurd (h3.subset hc) hh
      · exact h3
    · rw [if_neg hpre]
      unfold firstPiece at ih2
      cases hcut : cutAfter sep (t ++ p) with
      | none => simp
      | some q =>
        rw [hcut] at ih2
        simpa using ih2

/-- A cut splits the string in two, and the first part is at least as long
as the separator. -/
theorem cutAfter_spec (sep : GoString) :
    ∀ (s a r : GoString), cutAfter sep s = some (a, r) → s = a ++ r ∧ sep.length ≤ a.length := by
  intro s
  induction s with
  | nil => intro a r h; simp [cutAfter] at h
  | cons c t ih =>
    intro a r h
    rw [cutAfter] at h
    by_cases hpre : sep.isPrefixOf (c :: t) = true
    · rw [if_pos hpre] at h
      simp only [Option.some.injEq, Prod.mk.injEq] at h
      obtain ⟨h1, h2⟩ := h
      subst h1
      obtain ⟨q, hq⟩ := List.isPrefixOf_iff_prefix.mp hpre
      refine ⟨?_, le_refl _⟩
      rw [← h2, ← hq]
      simp
    · rw [if_neg hpre] at h
      cases hc : cutAfter sep t with
      | none => rw [hc] at h; simp at h
      | some q =>
        rw [hc] at h
        simp only [Option.map_some', Option.some.injEq, Prod.mk.injEq] at h
        obtain ⟨h1, h2⟩ := h
        obtain ⟨e1, e2⟩ := ih q.1 q.2 (by rw [hc])
        subst h1 h2
        refine ⟨by rw [e1]; simp, ?_⟩
        simp only [List.length_cons]
        omega

/-- When the first cut of `s` leaves `r`, the element at index 1 of the
split is the first piece of `r`. -/
theorem splitAfter_second_of_cut (sep s a r : GoString) (hsep : sep ≠ [])
    (hcut : cutAfter sep s = some (a, r)) :
    (SplitAfter s sep)[1]? = some (firstPiece sep r) := by
  obtain ⟨hs, hlen⟩ := cutAfter_spec sep s a r hcut
  have hseplen : 0 < sep.length := List.length_pos.mpr hsep
  unfold SplitAfter
  rw [if_neg hsep]
  obtain ⟨n, hn⟩ : ∃ n, s.length = n + 1 := by
    refine ⟨s.length - 1, ?_⟩
    have : s.length = a.length + r.length := by rw [hs]; simp
    omega
  rw [hn, splitAfterLoop, hcut]
  cases n with
  | zero =>
    have hr : r = [] := by
      have : s.length = a.length + r.length := by rw [hs]; simp
      exact List.length_eq_zero.mp (by omega)
    subst hr
    simp [splitAfterLoop, firstPiece, cutAfter]
  | succ m =>
    simp only [splitAfterLoop, firstPiece]
    cases cutAfter sep r with
    | none => simp
    | some p => simp

/-- The characters of the literal of line 94. -/
theorem lit_httpWww : "http://www.".toList = ['h','t','t','p',':','/','/','w','w','w','.'] := rfl

/-- The characters of the literal of line 96. -/
theorem lit_httpsWww : "https://www.".toList = ['h','t','t','p','s',':','/','/','w','w','w','.'] := rfl

/-- The characters of the literal of line 98. -/
theorem lit_http : "http://".toList = ['h','t','t','p',':','/','/'] := rfl

/-- The characters of the literal of line 100. -/
theorem lit_https : "https://".toList = ['h','t','t','p','s',':','/','/'] := rfl

/-- The characters of the literal of lines 102 and 105. -/
theorem lit_www : "www.".toList = ['w','w','w','.'] := rfl

/-- The `switch` on a link that begins with `http://www.` (line 95). -/
theorem stripLink_httpWww (r : GoString) :
    stripLink ("http://www.".toList ++ r) = some (firstPiece "http://www.".toList r) := by
  unfold stripLink
  have h1 : HasPrefix ("http://www.".toList ++ r) "http://www.".toList = true := by
    simp [HasPrefix, lit_httpWww, List.isPrefixOf]
  rw [if_pos h1]
  exact splitAfter_second _ _ (by simp [lit_httpWww])

/-- The `switch` on a link that begins with `https://www.` (line 97). -/
theorem stripLink_httpsWww (r : GoString) :
    stripLink ("https://www.".toList ++ r) = some (firstPiece "https://www.".toList r) := by
  unfold stripLink
  have h1 : HasPrefix ("https://www.".toList ++ r) "http://www.".toList = false := by
    simp [HasPrefix, lit_httpWww, lit_httpsWww, List.isPrefixOf]
  have h2 : HasPrefix ("https://www.".toList ++ r) "https://www.".toList = true := by
    simp [HasPrefix, lit_httpsWww, List.isPrefixOf]
  simp only [h1, h2, if_true, Bool.false_eq_true, if_false]
  exact splitAfter_second _ _ (by simp [lit_httpsWww])

/-- The `switch` on a link that begins with `http://` and not with
`http://www.` (line 99). -/
theorem stripLink_http (r : GoString) (hr : HasPrefix r "www.".toList = false) :
    stripLink ("http://".toList ++ r) = some (firstPiece "http://".toList r) := by
  unfold stripLink
  have h1 : HasPrefix ("http://".toList ++ r) "http://www.".toList = false := by
    simpa [HasPrefix, lit_httpWww, lit_http, lit_www, List.isPrefixOf] using hr
  have h2 : HasPrefix ("http://".toList ++ r) "https://www.".toList = false := by
    simp [HasPrefix, lit_httpsWww, lit_http, List.isPrefixOf]
  have h3 : HasPrefix ("http://".toList ++ r) "http://".toList = true := by
    simp [HasPrefix, lit_http, List.isPrefixOf]
  simp only [h1, h2, h3, if_true, Bool.false_eq_true, if_false]
  exact splitAfter_second _ _ (by simp [lit_http])

/-- The `switch` on a link that begins with `https://` and not with
`https://www.` (line 101). -/
theorem stripLink_https (r : GoString) (hr : HasPrefix r "www.".toList = false) :
    stripLink ("https://".toList ++ r) = some (firstPiece "https://".toList r) := by
  unfold stripLink
  have h1 : HasPrefix ("https://".toList ++ r) "http://www.".toList = false := by
    simp [HasPrefix, lit_httpWww, lit_https, List.isPrefixOf]
  have h2 : HasPrefix ("https://".toList ++ r) "https://www.".toList = false := by
    simpa [HasPrefix, lit_httpsWww, lit_https, lit_www, List.isPrefixOf] using hr
  have h3 : HasPrefix ("https://".toList ++ r) "http://".toList = false := by
    simp [HasPrefix, lit_http, lit_https, List.isPrefixOf]
  have h4 : HasPrefix ("https://".toList ++ r) "https://".toList = true := by
    simp [HasPrefix, lit_https, List.isPrefixOf]
  simp only [h1, h2, h3, h4, if_true, Bool.false_eq_true, if_false]
  exact splitAfter_second _ _ (by simp [lit_https])

/-- The base that line 105 takes from the root `https://www.` + `h`. -/
theorem rootBase (h : GoString) :
    (SplitAfter ("https://www.".toList ++ h) "www.".toList)[1]? =
      some (firstPiece "www.".toList h) := by
  apply splitAfter_second_of_cut _ _ "https://www.".toList h (by simp [lit_www])
  have h0 := cutAfter_sep_append "www.".toList h (by simp [lit_www])
  rw [lit_www] at h0 ⊢
  rw [lit_httpsWww]
  simp [cutAfter, List.isPrefixOf, h0]

/-- A hostname that does not begin with `www.` still does not once a path is
appended. -/
theorem hasPrefix_www_append (h p : GoString) (hwww : HasPrefix h "www.".toList = false)
    (hp : p = [] ∨ p.head? = some '/') : HasPrefix (h ++ p) "www.".toList = false := by
  rw [lit_www] at hwww ⊢
  unfold HasPrefix at hwww ⊢
  rcases hp with hp | hp
  · subst hp
    simpa using hwww
  · obtain ⟨q, rfl⟩ : ∃ q, p = '/' :: q := by
      cases p with
      | nil => simp at hp
      | cons a q =>
        simp at hp
        exact ⟨q, by rw [hp]⟩
    rcases h with _ | ⟨a, _ | ⟨b, _ | ⟨c, _ | ⟨d, t⟩⟩⟩⟩ <;>
      first
        | (simp [List.isPrefixOf] at hwww ⊢; done)
        | (simp [List.isPrefixOf] at hwww ⊢; exact hwww)

/-- The result of `SameDomain` from the stripped link and the base. -/
theorem sameDomain_eq (c : Crawler) (link l base : GoString)
    (hl : stripLink link = some l)
    (hb : (SplitAfter c.Root "www.".toList)[1]? = some base) :
    c.SameDomain link = some (HasPrefix l base) := by
  unfold Crawler.SameDomain
  rw [hl, hb]

/-- `HasPrefix` holds of an initial segment. -/
theorem hasPrefix_of_isPrefix (s pre : GoString) (h : pre <+: s) : HasPrefix s pre = true := by
  unfold HasPrefix
  exact List.isPrefixOf_iff_prefix.mpr h

/-- When the separator holds a character that `base` lacks, cutting `r` at
the next separator does not change whether it begins with `base`. -/
theorem hasPrefix_firstPiece (sep r base : GoString) (ch : Char) (hc : ch ∈ sep)
    (hb : ch ∉ base) : HasPrefix (firstPiece sep r) base = HasPrefix r base := by
  unfold HasPrefix
  by_cases h : base <+: r
  · obtain ⟨q, rfl⟩ := h
    have h1 := isPrefix_firstPiece sep base q ch hc hb
    rw [ List.isPrefixOf_iff_prefix.mpr h1, List.isPrefixOf_iff_prefix.mpr (List.prefix_append _ _)]
  · have h2 : ¬ base <+: firstPiece sep r := fun h3 => h (h3.trans (firstPiece_isPrefix sep r))
    have e1 : base.isPrefixOf (firstPiece sep r) = false := by
      rw [Bool.eq_false_iff]
      exact fun h3 => h2 (List.isPrefixOf_iff_prefix.mp h3)
    have e2 : base.isPrefixOf r = false := by
      rw [Bool.eq_false_iff]
      exact fun h3 => h (List.isPrefixOf_iff_prefix.mp h3)
    rw [e1, e2]

/-- The separator of line 99 holds a slash. -/
theorem slash_mem_http : '/' ∈ "http://".toList := by decide

/-- The separator of line 101 holds a slash. -/
theorem slash_mem_https : '/' ∈ "https://".toList := by decide

/-- The separator of line 95 holds a slash. -/
theorem slash_mem_httpWww : '/' ∈ "http://www.".toList := by decide

/-- The separator of line 97 holds a slash. -/
theorem slash_mem_httpsWww : '/' ∈ "https://www.".toList := by decide

/-- With root `https://www.` + `h`, a link whose stripped form is the first
piece of `h ++ p` is accepted. -/
theorem sameDomain_host_true (c : Crawler) (h p sep : GoString)
    (hroot : c.Root = "https://www.".toList ++ h) (hslash : '/' ∉ h)
    (hsep : '/' ∈ sep) (link : GoString)
    (hl : stripLink link = some (firstPiece sep (h ++ p))) :
    c.SameDomain link = some true := by
  rw [sameDomain_eq c link _ (firstPiece "www.".toList h) hl (by rw [hroot]; exact rootBase h)]
  congr 1
  apply hasPrefix_of_isPrefix
  exact (firstPiece_isPrefix _ h).trans (isPrefix_firstPiece sep h p '/' hsep hslash)

/-! ## `SameDomain`: the claims -/

/-- C5 (counterexample): with the hostname `www.example.com` and the path
`/x`, the root is `https://www.www.example.com`, and `SameDomain` returns
false for `http://www.example.com/x`: the `switch` strips `http://www.`
from the link, leaving `example.com/x`, while the base taken from the root
is `www.`. -/
theorem sameDomain_www_host_rejected :
    (Crawler.new ("https://www.".toList ++ "www.example.com".toList) 1).SameDomain
      ("http://".toList ++ "www.example.com".toList ++ "/x".toList) = some false := by
  decide

/-- C5 (amended): with root `https://www.example.com`, `SameDomain` is true
for `http://example.com/x`, `https://example.com/x` and
`http://www.example.com/x` and false for `https://notexample.com`; and for
every hostname `h` (no `/` in it) that does not begin with `www.` and every
path `p` (empty, or beginning with `/`), with root `https://www.` + `h` it
is true for each of `http://` + `h` + `p`, `https://` + `h` + `p`,
`http://www.` + `h` + `p` and `https://www.` + `h` + `p`. -/
theorem sameDomain_scheme_www_variants (c : Crawler) (h p : GoString)
    (hroot : c.Root = "https://www.".toList ++ h)
    (hslash : '/' ∉ h) (hwww : HasPrefix h "www.".toList = false)
    (hp : p = [] ∨ p.head? = some '/') :
    (c.SameDomain ("http://".toList ++ (h ++ p)) = some true ∧
      c.SameDomain ("https://".toList ++ (h ++ p)) = some true ∧
      c.SameDomain ("http://www.".toList ++ (h ++ p)) = some true ∧
      c.SameDomain ("https://www.".toList ++ (h ++ p)) = some true) ∧
    (∀ c0 : Crawler, c0.Root = "https://www.example.com".toList →
      c0.SameDomain "http://example.com/x".toList = some true ∧
      c0.SameDomain "https://example.com/x".toList = some true ∧
      c0.SameDomain "http://www.example.com/x".toList = some true ∧
      c0.SameDomain "https://notexample.com".toList = some false) := by
  have hhp := hasPrefix_www_append h p hwww hp
  refine ⟨⟨?_, ?_, ?_, ?_⟩, ?_⟩
  · exact sameDomain_host_true c h p _ hroot hslash slash_mem_http _ (stripLink_http _ hhp)
  · exact sameDomain_host_true c h p _ hroot hslash slash_mem_https _ (stripLink_https _ hhp)
  · exact sameDomain_host_true c h p _ hroot hslash slash_mem_httpWww _ (stripLink_httpWww _)
  · exact sameDomain_host_true c h p _ hroot hslash slash_mem_httpsWww _ (stripLink_httpsWww _)
  · intro c0 h0
    unfold Crawler.SameDomain
    rw [h0]
    decide

/-- C5 (witness): the amended statement at the hostname `example.com` and
the path `/x`. -/
theorem sameDomain_scheme_www_variants_witness :
    ((Crawler.new "https://www.example.com".toList 1).SameDomain
        ("http://".toList ++ ("example.com".toList ++ "/x".toList)) = some true ∧
      (Crawler.new "https://www.example.com".toList 1).SameDomain
        ("https://".toList ++ ("example.com".toList ++ "/x".toList)) = some true ∧
      (Crawler.new "https://www.example.com".toList 1).SameDomain
        ("http://www.".toList ++ ("example.com".toList ++ "/x".toList)) = some true ∧
      (Crawler.new "https://www.example.com".toList 1).SameDomain
        ("https://www.".toList ++ ("example.com".toList ++ "/x".toList)) = some true) ∧
    (∀ c0 : Crawler, c0.Root = "https://www.example.com".toList →
      c0.SameDomain "http://example.com/x".toList = some true ∧
      c0.SameDomain "https://example.com/x".toList = some true ∧
      c0.SameDomain "http://www.example.com/x".toList = some true ∧
      c0.SameDomain "https://notexample.com".toList = some false) :=
  sameDomain_scheme_www_variants (Crawler.new "https://www.example.com".toList 1)
    "example.com".toList "/x".toList (by decide) (by decide) (by decide) (by decide)

/-- C6 (counterexample): with root `https://www.example.com`, `SameDomain`
returns true for `https://example.com.evil.com`, whose hostname is not
`example.com`. -/
theorem sameDomain_accepts_evil :
    (Crawler.new "https://www.example.com".toList 1).SameDomain
      "https://example.com.evil.com".toList = some true := by
  decide

/-- C6 (amended): `SameDomain` compares raw string prefixes.  With root
`https://www.example.com`, for a link made of a scheme (`http://` or
`https://`), an optional `www.` and a remainder `r` (where the `www.` is
absent, `r` does not itself begin with `www.`), the result is whether `r`
begins with the string `example.com`: false whenever it does not, true
whenever it does, whatever follows; so `https://example.com.evil.com` is
accepted. -/
theorem sameDomain_compares_strings (c : Crawler) (r : GoString)
    (hroot : c.Root = "https://www.example.com".toList) :
    c.SameDomain ("http://www.".toList ++ r) = some (HasPrefix r "example.com".toList) ∧
    c.SameDomain ("https://www.".toList ++ r) = some (HasPrefix r "example.com".toList) ∧
    (HasPrefix r "www.".toList = false →
      c.SameDomain ("http://".toList ++ r) = some (HasPrefix r "example.com".toList) ∧
      c.SameDomain ("https://".toList ++ r) = some (HasPrefix r "example.com".toList)) ∧
    c.SameDomain "https://example.com.evil.com".toList = some true := by
  have hb : (SplitAfter c.Root "www.".toList)[1]? = some "example.com".toList := by
    rw [hroot]
    decide
  have hno : '/' ∉ "example.com".toList := by decide
  refine ⟨?_, ?_, ?_, ?_⟩
  · rw [sameDomain_eq c _ _ _ (stripLink_httpWww r) hb,
      hasPrefix_firstPiece _ r _ '/' slash_mem_httpWww hno]
  · rw [sameDomain_eq c _ _ _ (stripLink_httpsWww r) hb,
      hasPrefix_firstPiece _ r _ '/' slash_mem_httpsWww hno]
  · intro hr
    constructor
    · rw [sameDomain_eq c _ _ _ (stripLink_http r hr) hb,
        hasPrefix_firstPiece _ r _ '/' slash_mem_http hno]
    · rw [sameDomain_eq c _ _ _ (stripLink_https r hr) hb,
        hasPrefix_firstPiece _ r _ '/' slash_mem_https hno]
  · unfold Crawler.SameDomain
    rw [hroot]
    decide

/-- C6 (witness): the amended statement at the remainder
`example.com.evil.com`. -/
theorem sameDomain_compares_strings_witness :
    (Crawler.new "https://www.example.com".toList 1).Root = "https://www.example.com".toList ∧
    (Crawler.new "https://www.example.com".toList 1).SameDomain
      ("https://".toList ++ "example.com.evil.com".toList) = some true :=
  ⟨rfl, ((sameDomain_compares_strings (Crawler.new "https://www.example.com".toList 1)
    "example.com.evil.com".toList rfl).2.2.1 (by decide)).2⟩

/-- C7 (the code at the failing input): with the root `https://example.com`,
which holds no `www.`, splitting the root after `www.` yields one piece and
the index 1 of line 105 is out of range: `SameDomain` panics instead of
returning a boolean, for `https://example.com/x` and for
`http://www.example.com/x`. -/
theorem sameDomain_panics_without_www :
    SplitAfter "https://example.com".toList "www.".toList = ["https://example.com".toList] ∧
    (Crawler.new "https://example.com".toList 1).SameDomain
      "https://example.com/x".toList = none ∧
    (Crawler.new "https://example.com".toList 1).SameDomain
      "http://www.example.com/x".toList = none := by
  decide

/-! ## Facts about the maps -/

/-- Reading a map after a write. -/
theorem mapGet_mapSet {β : Type} (m : List (GoString × β)) (k : GoString) (v : β)
    (x : GoString) : mapGet (mapSet m k v) x = if k = x then some v else mapGet m x := by
  induction m with
  | nil => simp [mapSet, mapGet]
  | cons e rest ih =>
    obtain ⟨a, b⟩ := e
    by_cases hak : a = k
    · subst hak
      by_cases hax : a = x
      · simp [mapSet, mapGet, hax]
      · simp [mapSet, mapGet, hax]
    · by_cases hax : a = x
      · subst hax
        have hka : ¬ k = a := fun h => hak h.symm
        simp [mapSet, mapGet, hak, hka]
      · simp [mapSet, mapGet, hak, hax, ih]

/-- The keys of a map are the strings under which a value is stored. -/
theorem mem_mapKeys_iff {β : Type} (m : List (GoString × β)) (x : GoString) :
    x ∈ mapKeys m ↔ (mapGet m x).isSome = true := by
  induction m with
  | nil => simp [mapKeys, mapGet]
  | cons e rest ih =>
    obtain ⟨a, b⟩ := e
    have ih2 : x ∈ List.map (fun e => e.1) rest ↔ (mapGet rest x).isSome = true := ih
    by_cases hax : a = x
    · subst hax
      simp only [mapKeys, List.map_cons, List.mem_cons, mapGet, if_true, Option.isSome_some]
      exact ⟨fun _ => trivial, fun _ => Or.inl trivial⟩
    · have hxa : ¬ x = a := fun h => hax h.symm
      simp only [mapKeys, List.map_cons, List.mem_cons, mapGet, if_neg hax]
      rw [ih2]
      exact ⟨fun h => h.resolve_left hxa, fun h => Or.inr h⟩

/-! ## Facts about the steps -/

/-- A step that is taken is a step of `Crawl` by the goroutine that the
event names. -/
theorem step_inv (W : World) (c s : Crawler) (e : Event) (h : step W c e = some s) :
    ∃ g, c.wg[e.idx]? = some g ∧ c.Crawl W g e = some s := by
  unfold step at h
  cases hg : c.wg[e.idx]? with
  | none => rw [hg] at h; simp at h
  | some g =>
    rw [hg] at h
    exact ⟨g, rfl, h⟩

/-- What an `acquire` step that is taken says about the two states. -/
theorem crawl_acquire_inv (W : World) (c s : Crawler) (g : Goroutine) (i : Nat)
    (h : c.Crawl W g (.acquire i) = some s) :
    g.stage = .waiting ∧ 0 < c.Sem.len ∧
      s = { c with Sem := { c.Sem with len := c.Sem.len - 1 }
                   wg := c.wg.set i { g with stage := .fetching } } := by
  simp only [Crawler.Crawl] at h
  by_cases hc : g.stage = .waiting ∧ 0 < c.Sem.len
  · rw [if_pos hc] at h
    exact ⟨hc.1, hc.2, (Option.some.inj h).symm⟩
  · rw [if_neg hc] at h
    simp at h

/-- What a `fetch` step that is taken says about the two states. -/
theorem crawl_fetch_inv (W : World) (c s : Crawler) (g : Goroutine) (i : Nat) (ret : Bool)
    (links : List GoString) (h : c.Crawl W g (.fetch i ret links) = some s) :
    g.stage = .fetching ∧ links.Perm (W.links g.uri) ∧
      (((ret && c.Running) = true ∧
          s = { c with wg := c.wg.set i { g with
            stage := .visiting ⟨W.assets g.uri, links, g.parent⟩ links } }) ∨
        ((ret && c.Running) = false ∧
          s = { c with wg := c.wg.set i { g with stage := .deferring } })) := by
  simp only [Crawler.Crawl] at h
  by_cases hc : g.stage = .fetching ∧ links.Perm (W.links g.uri)
  · rw [if_pos hc] at h
    refine ⟨hc.1, hc.2, ?_⟩
    cases hb : (ret && c.Running) with
    | true =>
      rw [hb] at h
      exact Or.inl ⟨rfl, (Option.some.inj h).symm⟩
    | false =>
      rw [hb] at h
      exact Or.inr ⟨rfl, (Option.some.inj h).symm⟩
  · rw [if_neg hc] at h
    simp at h

/-- What a `visit` step that is taken says about the two states: the loop
is left, or the next link is new and a goroutine is started for it, or the
next link is a key of `Sitemap` and is passed over. -/
theorem crawl_visit_inv (W : World) (c s : Crawler) (g : Goroutine) (i : Nat)
    (h : c.Crawl W g (.visit i) = some s) :
    ∃ page, (g.stage = .visiting page [] ∧
        s = { c with wg := c.wg.set i { g with stage := .releasing } }) ∨
      (∃ link rest, g.stage = .visiting page (link :: rest) ∧
        ((inSitemap c link = false ∧
            s = { c with wg := c.wg.set i { g with stage := .visiting page rest } ++
                           [⟨link, g.uri, .waiting⟩]
                         Sitemap := mapSet c.Sitemap g.uri page }) ∨
          (inSitemap c link = true ∧
            s = { c with wg := c.wg.set i { g with stage := .visiting page rest } }))) := by
  simp only [Crawler.Crawl] at h
  cases hst : g.stage with
  | visiting page rest0 =>
    rw [hst] at h
    refine ⟨page, ?_⟩
    cases rest0 with
    | nil =>
      simp only [] at h
      exact Or.inl ⟨rfl, (Option.some.inj h).symm⟩
    | cons link rest =>
      simp only [] at h
      refine Or.inr ⟨link, rest, rfl, ?_⟩
      cases hq : mapGet c.Sitemap link with
      | none =>
        rw [hq] at h
        simp only [Option.isNone_none, if_true] at h
        exact Or.inl ⟨by simp [inSitemap, hq], (Option.some.inj h).symm⟩
      | some v =>
        rw [hq] at h
        simp only [Option.isNone_some, Bool.false_eq_true, if_false] at h
        exact Or.inr ⟨by simp [inSitemap, hq], (Option.some.inj h).symm⟩
  | waiting => rw [hst] at h; simp at h
  | fetching => rw [hst] at h; simp at h
  | deferring => rw [hst] at h; simp at h
  | testing => rw [hst] at h; simp at h
  | writing => rw [hst] at h; simp at h
  | releasing => rw [hst] at h; simp at h

/-- What a `clear` step that is taken says about the two states. -/
theorem crawl_clear_inv (W : World) (c s : Crawler) (g : Goroutine) (i : Nat)
    (h : c.Crawl W g (.clear i) = some s) :
    g.stage = .deferring ∧
      s = { c with Running := false
                   wg := c.wg.set i { g with stage := .testing } } := by
  simp only [Crawler.Crawl] at h
  by_cases hc : g.stage = .deferring
  · rw [if_pos hc] at h
    exact ⟨hc, (Option.some.inj h).symm⟩
  · rw [if_neg hc] at h
    simp at h

/-- What a `test` step that is taken says about the two states: the test
of line 161 passes, `uri` being no key of `Sitemap`, or it fails. -/
theorem crawl_test_inv (W : World) (c s : Crawler) (g : Goroutine) (i : Nat)
    (h : c.Crawl W g (.test i) = some s) :
    g.stage = .testing ∧
      ((inSitemap c g.uri = false ∧
          s = { c with wg := c.wg.set i { g with stage := .writing } }) ∨
        s = { c with wg := c.wg.set i { g with stage := .releasing } }) := by
  simp only [Crawler.Crawl] at h
  by_cases hc : g.stage = .testing
  · rw [if_pos hc] at h
    refine ⟨hc, ?_⟩
    by_cases hd : (mapGet c.Deferred g.uri).getD [] = [] ∧ (mapGet c.Sitemap g.uri).isNone = true
    · rw [if_pos hd] at h
      refine Or.inl ⟨?_, (Option.some.inj h).symm⟩
      unfold inSitemap
      cases hq : mapGet c.Sitemap g.uri with
      | none => rfl
      | some v =>
        have := hd.2
        rw [hq] at this
        simp at this
    · rw [if_neg hd] at h
      exact Or.inr (Option.some.inj h).symm
  · rw [if_neg hc] at h
    simp at h

/-- What a `write` step that is taken says about the two states. -/
theorem crawl_write_inv (W : World) (c s : Crawler) (g : Goroutine) (i : Nat)
    (h : c.Crawl W g (.write i) = some s) :
    g.stage = .writing ∧
      s = { c with Deferred := mapSet c.Deferred g.uri g.parent
                   wg := c.wg.set i { g with stage := .releasing } } := by
  simp only [Crawler.Crawl] at h
  by_cases hc : g.stage = .writing
  · rw [if_pos hc] at h
    exact ⟨hc, (Option.some.inj h).symm⟩
  · rw [if_neg hc] at h
    simp at h

/-- What a `release` step that is taken says about the two states. -/
theorem crawl_release_inv (W : World) (c s : Crawler) (g : Goroutine) (i : Nat)
    (h : c.Crawl W g (.release i) = some s) :
    g.stage = .releasing ∧ c.Sem.len < c.Sem.cap ∧
      s = { c with Sem := { c.Sem with len := c.Sem.len + 1 }
                   wg := c.wg.eraseIdx i } := by
  simp only [Crawler.Crawl] at h
  by_cases hc : g.stage = .releasing ∧ c.Sem.len < c.Sem.cap
  · rw [if_pos hc] at h
    exact ⟨hc.1, hc.2, (Option.some.inj h).symm⟩
  · rw [if_neg hc] at h
    simp at h

/-- A property that every step keeps holds after every schedule. -/
theorem run_preserves (W : World) (P : Crawler → Prop)
    (hstep : ∀ c e s, P c → step W c e = some s → P s) :
    ∀ (evs : List Event) (c s : Crawler), P c → run W c evs = some s → P s := by
  intro evs
  induction evs with
  | nil =>
    intro c s hc h
    simp only [run, Option.some.injEq] at h
    exact h ▸ hc
  | cons e es ih =>
    intro c s hc h
    rw [run] at h
    cases hs : step W c e with
    | none => rw [hs] at h; simp at h
    | some c1 =>
      rw [hs] at h
      exact ih c1 s (hstep c e c1 hc hs) h

/-- A step followed by a schedule is a schedule. -/
theorem run_append (W : World) :
    ∀ (evs : List Event) (c s : Crawler) (e : Event) (s1 : Crawler),
      step W c e = some s → run W s evs = some s1 → run W c (e :: evs) = some s1 := by
  intro evs c s e s1 h1 h2
  rw [run, h1]
  exact h2

/-- Replacing one element of a list changes a sum over it by the difference
of the two terms. -/
theorem sum_map_set (f : Goroutine → Nat) :
    ∀ (l : List Goroutine) (i : Nat) (g g1 : Goroutine), l[i]? = some g →
      ((l.set i g1).map f).sum + f g = (l.map f).sum + f g1 := by
  intro l
  induction l with
  | nil => intro i g g1 h; simp at h
  | cons a t ih =>
    intro i g g1 h
    cases i with
    | zero =>
      simp only [List.getElem?_cons_zero, Option.some.injEq] at h
      subst h
      simp only [List.set_cons_zero, List.map_cons, List.sum_cons]
      omega
    | succ j =>
      simp only [List.getElem?_cons_succ] at h
      have := ih j g g1 h
      simp only [List.set_cons_succ, List.map_cons, List.sum_cons]
      omega

/-- Removing one element of a list lowers a sum over it by its term. -/
theorem sum_map_eraseIdx (f : Goroutine → Nat) :
    ∀ (l : List Goroutine) (i : Nat) (g : Goroutine), l[i]? = some g →
      ((l.eraseIdx i).map f).sum + f g = (l.map f).sum := by
  intro l
  induction l with
  | nil => intro i g h; simp at h
  | cons a t ih =>
    intro i g h
    cases i with
    | zero =>
      simp only [List.getElem?_cons_zero, Option.some.injEq] at h
      subst h
      simp only [List.eraseIdx_cons_zero, List.map_cons, List.sum_cons]
      omega
    | succ j =>
      simp only [List.getElem?_cons_succ] at h
      have := ih j g h
      simp only [List.eraseIdx_cons_succ, List.map_cons, List.sum_cons]
      omega

/-- A sum is monotone in its terms. -/
theorem sum_map_le (f f1 : Goroutine → Nat) :
    ∀ (l : List Goroutine), (∀ g ∈ l, f g ≤ f1 g) → (l.map f).sum ≤ (l.map f1).sum := by
  intro l
  induction l with
  | nil => intro _; simp
  | cons a t ih =>
    intro h
    have h1 := h a (by simp)
    have h2 := ih (fun g hg => h g (List.mem_cons_of_mem _ hg))
    simp only [List.map_cons, List.sum_cons]
    omega

/-! ## `Start` and the permits -/

/-- The loop of lines 176-178 adds `n` values to the channel. -/
theorem fillSem_eq (n : Nat) : ∀ ch : Chan, fillSem n ch = ⟨ch.len + n, ch.cap⟩ := by
  induction n with
  | zero => intro ch; rfl
  | succ k ih =>
    intro ch
    rw [fillSem, ih]
    simp only [Chan.mk.injEq, and_true]
    omega

/-- With no goroutine outstanding and `MaxRoutines` at least 1, `Start` does
not panic. -/
theorem start_ok (c : Crawler) (hwg : c.wg = []) (hn : 1 ≤ c.MaxRoutines) :
    c.Start = .ok (started c) := by
  unfold Crawler.Start started
  have h0 : ¬ c.MaxRoutines = 0 := by omega
  have h1 : ¬ c.MaxRoutines < 0 := by omega
  simp only [fieldAddrIsNil, Bool.or_self, Bool.false_eq_true, false_or, h0, h1, if_false,
    fillSem_eq, hwg, List.nil_append, Nat.zero_add]
  simp

/-- `Start` leaves the two maps alone and sets `Running`. -/
theorem start_inv (c s0 : Crawler) (h0 : c.Start = .ok s0) :
    s0.Deferred = c.Deferred ∧ s0.Sitemap = c.Sitemap ∧ s0.Running = true := by
  unfold Crawler.Start at h0
  simp only [] at h0
  split at h0
  · simp at h0
  · split at h0
    · simp at h0
    · have := Except.ok.inj h0
      subst this
      exact ⟨rfl, rfl, rfl⟩

/-- With `MaxRoutines` zero, `Start` panics at line 172 whatever the other
fields hold. -/
theorem start_panics_on_zero (c : Crawler) (h : c.MaxRoutines = 0) :
    c.Start = .error "Crawler fields not set." := by
  unfold Crawler.Start
  simp [h]

/-- A goroutine that is not waiting holds a permit. -/
theorem holds_of_ne (g : Goroutine) (h : g.stage ≠ .waiting) : holds g = 1 := by
  unfold holds
  rw [if_neg h]

/-- A goroutine that is waiting holds none. -/
theorem holds_waiting (g : Goroutine) (h : g.stage = .waiting) : holds g = 0 := by
  unfold holds
  rw [if_pos h]

/-- A step that only moves goroutine `i` between two stages past the
receive keeps the number of holders. -/
theorem busy_set (l : List Goroutine) (i : Nat) (g : Goroutine) (st : Stage)
    (hg : l[i]? = some g) (h1 : g.stage ≠ .waiting) (h2 : st ≠ .waiting) :
    ((l.set i { g with stage := st }).map holds).sum = (l.map holds).sum := by
  have hs := sum_map_set holds l i g { g with stage := st } hg
  rw [holds_of_ne g h1, holds_of_ne { g with stage := st } h2] at hs
  omega

/-- Every step keeps the permits balanced. -/
theorem permitsBalanced_step (W : World) (n : Nat) (c : Crawler) (e : Event) (s : Crawler)
    (hc : permitsBalanced n c) (h : step W c e = some s) : permitsBalanced n s := by
  obtain ⟨hbal, hcap⟩ := hc
  unfold busy at hbal
  obtain ⟨g, hg, hs⟩ := step_inv W c s e h
  cases e with
  | acquire i =>
    obtain ⟨hst, hlen, rfl⟩ := crawl_acquire_inv W c s g i hs
    have h1 := sum_map_set holds c.wg i g { g with stage := .fetching } hg
    rw [holds_waiting g hst, holds_of_ne { g with stage := .fetching } (by simp)] at h1
    refine ⟨?_, hcap⟩
    show c.Sem.len - 1 + ((c.wg.set i { g with stage := .fetching }).map holds).sum = n
    omega
  | fetch i ret links =>
    obtain ⟨hst, _, hcase⟩ := crawl_fetch_inv W c s g i ret links hs
    have hne : g.stage ≠ .waiting := by rw [hst]; simp
    rcases hcase with ⟨_, rfl⟩ | ⟨_, rfl⟩
    · refine ⟨?_, hcap⟩
      show c.Sem.len + ((c.wg.set i _).map holds).sum = n
      rw [busy_set c.wg i g _ hg hne (by simp)]
      exact hbal
    · refine ⟨?_, hcap⟩
      show c.Sem.len + ((c.wg.set i _).map holds).sum = n
      rw [busy_set c.wg i g _ hg hne (by simp)]
      exact hbal
  | visit i =>
    obtain ⟨page, hcase⟩ := crawl_visit_inv W c s g i hs
    rcases hcase with ⟨hst, rfl⟩ | ⟨link, rest, hst, ⟨_, rfl⟩ | ⟨_, rfl⟩⟩
    · have hne : g.stage ≠ .waiting := by rw [hst]; simp
      refine ⟨?_, hcap⟩
      show c.Sem.len + ((c.wg.set i _).map holds).sum = n
      rw [busy_set c.wg i g _ hg hne (by simp)]
      exact hbal
    · have hne : g.stage ≠ .waiting := by rw [hst]; simp
      refine ⟨?_, hcap⟩
      show c.Sem.len + ((c.wg.set i _ ++ [(⟨link, g.uri, .waiting⟩ : Goroutine)]).map holds).sum = n
      rw [List.map_append, List.sum_append, busy_set c.wg i g _ hg hne (by simp)]
      simp only [List.map_cons, List.map_nil, List.sum_cons, List.sum_nil]
      rw [holds_waiting (⟨link, g.uri, .waiting⟩ : Goroutine) rfl]
      omega
    · have hne : g.stage ≠ .waiting := by rw [hst]; simp
      refine ⟨?_, hcap⟩
      show c.Sem.len + ((c.wg.set i _).map holds).sum = n
      rw [busy_set c.wg i g _ hg hne (by simp)]
      exact hbal
  | clear i =>
    obtain ⟨hst, rfl⟩ := crawl_clear_inv W c s g i hs
    have hne : g.stage ≠ .waiting := by rw [hst]; simp
    refine ⟨?_, hcap⟩
    show c.Sem.len + ((c.wg.set i _).map holds).sum = n
    rw [busy_set c.wg i g _ hg hne (by simp)]
    exact hbal
  | test i =>
    obtain ⟨hst, hcase⟩ := crawl_test_inv W c s g i hs
    have hne : g.stage ≠ .waiting := by rw [hst]; simp
    rcases hcase with ⟨_, rfl⟩ | rfl
    · refine ⟨?_, hcap⟩
      show c.Sem.len + ((c.wg.set i _).map holds).sum = n
      rw [busy_set c.wg i g _ hg hne (by simp)]
      exact hbal
    · refine ⟨?_, hcap⟩
      show c.Sem.len + ((c.wg.set i _).map holds).sum = n
      rw [busy_set c.wg i g _ hg hne (by simp)]
      exact hbal
  | write i =>
    obtain ⟨hst, rfl⟩ := crawl_write_inv W c s g i hs
    have hne : g.stage ≠ .waiting := by rw [hst]; simp
    refine ⟨?_, hcap⟩
    show c.Sem.len + ((c.wg.set i _).map holds).sum = n
    rw [busy_set c.wg i g _ hg hne (by simp)]
    exact hbal
  | release i =>
    obtain ⟨hst, hlen, rfl⟩ := crawl_release_inv W c s g i hs
    have hne : g.stage ≠ .waiting := by rw [hst]; simp
    have h1 := sum_map_eraseIdx holds c.wg i g hg
    rw [holds_of_ne g hne] at h1
    refine ⟨?_, hcap⟩
    show c.Sem.len + 1 + ((c.wg.eraseIdx i).map holds).sum = n
    omega

/-- `Start` leaves the permits balanced. -/
theorem permitsBalanced_start (c : Crawler) (hwg : c.wg = []) (hn : 1 ≤ c.MaxRoutines)
    (s0 : Crawler) (h0 : c.Start = .ok s0) : permitsBalanced c.MaxRoutines.toNat s0 := by
  rw [start_ok c hwg hn] at h0
  have := Except.ok.inj h0
  subst this
  exact ⟨by simp [busy, started, holds], rfl⟩

/-! ## Termination of the main pass -/

/-- The bound covers the steps of the goroutine itself. -/
theorem growth_ge (d j : Nat) : 6 ≤ growth d j := by
  cases j with
  | zero => simp [growth]
  | succ k => simp [growth]

/-- The bound grows with the rank, one rank at a time. -/
theorem growth_succ_le (d : Nat) : ∀ j, growth d j ≤ growth d (j + 1) := by
  intro j
  induction j with
  | zero => simp [growth]
  | succ k ih =>
    have h1 : d * (1 + growth d k) ≤ d * (1 + growth d (k + 1)) :=
      Nat.mul_le_mul_left d (by omega)
    show growth d (k + 1) ≤ 6 + d * (1 + growth d (k + 1))
    calc growth d (k + 1) = 6 + d * (1 + growth d k) := rfl
      _ ≤ 6 + d * (1 + growth d (k + 1)) := by omega

/-- The bound grows with the rank. -/
theorem growth_mono (d : Nat) {j k : Nat} (h : j ≤ k) : growth d j ≤ growth d k := by
  induction k with
  | zero =>
    have : j = 0 := by omega
    subst this
    exact le_refl _
  | succ m ih =>
    by_cases hjm : j ≤ m
    · exact le_trans (ih hjm) (growth_succ_le d m)
    · have : j = m + 1 := by omega
      subst this
      exact le_refl _

/-- No page of `V` has more links than `degree W V`. -/
theorem degree_bound (W : World) :
    ∀ (V : List GoString) (u : GoString), u ∈ V → (W.links u).length ≤ degree W V := by
  intro V
  induction V with
  | nil => intro u hu; simp at hu
  | cons a t ih =>
    intro u hu
    unfold degree
    simp only [List.map_cons, List.sum_cons]
    rcases List.mem_cons.mp hu with h | h
    · subst h
      omega
    · have := ih u h
      unfold degree at this
      omega

/-- When `Sitemap` only gains keys, the number of unseen URLs does not grow.
-/
theorem unseen_le (V : List GoString) (c s : Crawler)
    (hmono : ∀ x, inSitemap c x = true → inSitemap s x = true) :
    unseen V s ≤ unseen V c := by
  unfold unseen
  apply List.countP_mono_left
  intro x _ hx
  cases hcx : inSitemap c x with
  | false => rfl
  | true =>
    rw [hmono x hcx] at hx
    simp at hx

/-- When `Sitemap` gains a key of `V`, the number of unseen URLs drops. -/
theorem unseen_lt (c s : Crawler)
    (hmono : ∀ x, inSitemap c x = true → inSitemap s x = true) (u : GoString)
    (hc : inSitemap c u = false) (hs : inSitemap s u = true) :
    ∀ V : List GoString, u ∈ V → unseen V s < unseen V c := by
  intro V
  induction V with
  | nil => intro hu; simp at hu
  | cons a t ih =>
    intro hu
    have hle : unseen t s ≤ unseen t c := unseen_le t c s hmono
    unfold unseen at hle ih ⊢
    simp only [List.countP_cons]
    by_cases hau : a = u
    · subst hau
      simp only [hc, hs, Bool.not_false, Bool.not_true, if_true, Bool.false_eq_true, if_false]
      omega
    · have hut : u ∈ t := by
        rcases List.mem_cons.mp hu with h | h
        · exact absurd h.symm hau
        · exact h
      have h1 := ih hut
      have h2 : (if (!inSitemap s a) = true then 1 else 0) ≤
          (if (!inSitemap c a) = true then 1 else 0) := by
        cases hca : inSitemap c a with
        | false => split <;> simp
        | true => simp [hmono a hca]
      omega

/-- When `Sitemap` only gains keys, no rank grows. -/
theorem rank_le (V : List GoString) (c s : Crawler)
    (hmono : ∀ x, inSitemap c x = true → inSitemap s x = true) (u : GoString) (hu : u ∈ V) :
    rank V s u ≤ rank V c u := by
  unfold rank
  have hle := unseen_le V c s hmono
  cases hcu : inSitemap c u with
  | true =>
    rw [hmono u hcu]
    simp only [if_true]
    omega
  | false =>
    cases hsu : inSitemap s u with
    | false =>
      simp only [Bool.false_eq_true, if_false]
      omega
    | true =>
      have hlt := unseen_lt c s hmono u hcu hsu V hu
      simp only [if_true, Bool.false_eq_true, if_false]
      omega

/-- A goroutine for a URL of `V` has rank at least one. -/
theorem rank_pos (V : List GoString) (c : Crawler) (u : GoString) (hu : u ∈ V) :
    1 ≤ rank V c u := by
  unfold rank
  cases hcu : inSitemap c u with
  | true =>
    simp only [if_true]
    omega
  | false =>
    have hpos : 0 < unseen V c := by
      unfold unseen
      rw [List.countP_pos_iff]
      exact ⟨u, hu, by simp [hcu]⟩
    simp only [Bool.false_eq_true, if_false]
    omega

/-- The weight of a stage grows with the rank. -/
theorem stageWeight_mono (d : Nat) {r1 r2 : Nat} (h : r1 ≤ r2) (st : Stage) :
    stageWeight d r1 st ≤ stageWeight d r2 st := by
  have h1 := growth_mono d h
  have h2 : growth d (r1 - 1) ≤ growth d (r2 - 1) := growth_mono d (by omega)
  cases st with
  | waiting => exact h1
  | fetching =>
    show growth d r1 - 1 ≤ growth d r2 - 1
    omega
  | visiting page rest =>
    show 2 + rest.length * (1 + growth d (r1 - 1)) ≤ 2 + rest.length * (1 + growth d (r2 - 1))
    have := Nat.mul_le_mul_left rest.length (show 1 + growth d (r1 - 1) ≤ 1 + growth d (r2 - 1) by omega)
    omega
  | deferring => exact le_refl _
  | testing => exact le_refl _
  | writing => exact le_refl _
  | releasing => exact le_refl _

/-- Every stage counts for at least one step. -/
theorem stageWeight_pos (d r : Nat) (st : Stage) : 1 ≤ stageWeight d r st := by
  have := growth_ge d r
  cases st with
  | waiting => show 1 ≤ growth d r; omega
  | fetching => show 1 ≤ growth d r - 1; omega
  | visiting page rest =>
    show 1 ≤ 2 + rest.length * (1 + growth d (r - 1))
    omega
  | deferring => show 1 ≤ 4; omega
  | testing => show 1 ≤ 3; omega
  | writing => show 1 ≤ 2; omega
  | releasing => exact le_refl _

/-- When `Sitemap` only gains keys, no weight grows. -/
theorem weight_le (V : List GoString) (d : Nat) (c s : Crawler)
    (hmono : ∀ x, inSitemap c x = true → inSitemap s x = true) (g : Goroutine)
    (hg : g.uri ∈ V) : weight V d s g ≤ weight V d c g :=
  stageWeight_mono d (rank_le V c s hmono g.uri hg) g.stage

/-- The weights depend on the crawler through `Sitemap` only. -/
theorem weight_congr (V : List GoString) (d : Nat) (c s : Crawler)
    (h : s.Sitemap = c.Sitemap) : weight V d s = weight V d c := by
  funext g
  unfold weight rank unseen inSitemap
  rw [h]

/-- A goroutine started by a round of the loop of lines 147-156 has,
afterwards, a lower rank than the goroutine that started it had before. -/
theorem child_rank (V : List GoString) (c s : Crawler) (uri link : GoString)
    (hfresh : inSitemap c link = false)
    (hkeys : ∀ x, inSitemap s x = (inSitemap c x || decide (x = uri)))
    (huri : uri ∈ V) : rank V s link + 1 ≤ rank V c uri := by
  have hmono : ∀ x, inSitemap c x = true → inSitemap s x = true := by
    intro x hx
    rw [hkeys x, hx]
    rfl
  unfold rank
  cases hcu : inSitemap c uri with
  | true =>
    have hsame : ∀ x, inSitemap s x = inSitemap c x := by
      intro x
      rw [hkeys x]
      by_cases hx : x = uri
      · subst hx
        rw [hcu]
        rfl
      · simp [hx]
    have hun : unseen V s = unseen V c := by
      unfold unseen
      apply List.countP_congr
      intro x _
      rw [hsame x]
    rw [hsame link, hfresh, hun]
    simp only [Bool.false_eq_true, if_false, if_true]
    omega
  | false =>
    have hsu : inSitemap s uri = true := by
      rw [hkeys uri]
      simp
    have hlt := unseen_lt c s hmono uri hcu hsu V huri
    simp only [Bool.false_eq_true, if_false]
    split <;> omega

/-- A step that moves goroutine `i` to a lighter stage, leaving `Sitemap`
and the other goroutines alone, lowers the potential and keeps the
goroutines inside `V`. -/
theorem stage_change (V : List GoString) (d : Nat) (c s : Crawler) (i : Nat)
    (g : Goroutine) (st : Stage) (hg : c.wg[i]? = some g)
    (hwg : s.wg = c.wg.set i { g with stage := st }) (hS : s.Sitemap = c.Sitemap)
    (hin : allIn V c) (hpend : ∀ l ∈ pending st, l ∈ V)
    (hlt : stageWeight d (rank V c g.uri) st + 1 ≤ stageWeight d (rank V c g.uri) g.stage) :
    potential V d s + 1 ≤ potential V d c ∧ allIn V s := by
  constructor
  · unfold potential
    rw [weight_congr V d c s hS, hwg]
    have h1 := sum_map_set (weight V d c) c.wg i g { g with stage := st } hg
    have e1 : weight V d c g = stageWeight d (rank V c g.uri) g.stage := rfl
    have e2 : weight V d c { g with stage := st } = stageWeight d (rank V c g.uri) st := rfl
    rw [e1, e2] at h1
    omega
  · intro g1 hg1
    rw [hwg] at hg1
    rcases List.mem_or_eq_of_mem_set hg1 with h5 | h5
    · exact hin g1 h5
    · rw [h5]
      exact ⟨(hin g (List.mem_iff_getElem?.mpr ⟨i, hg⟩)).1, hpend⟩

/-- Each step lowers the potential by at least one, and keeps the goroutines
inside `V`, when `V` is closed under the links of its pages and no page of
`V` has more than `d` links. -/
theorem step_decreases (W : World) (V : List GoString) (d : Nat)
    (hV : ∀ u ∈ V, ∀ v ∈ W.links u, v ∈ V)
    (hd : ∀ u ∈ V, (W.links u).length ≤ d)
    (c : Crawler) (e : Event) (s : Crawler) (hin : allIn V c)
    (h : step W c e = some s) :
    potential V d s + 1 ≤ potential V d c ∧ allIn V s := by
  obtain ⟨g, hg, hs⟩ := step_inv W c s e h
  have hgmem : g ∈ c.wg := List.mem_iff_getElem?.mpr ⟨e.idx, hg⟩
  obtain ⟨hgV, hgP⟩ := hin g hgmem
  have hge := growth_ge d (rank V c g.uri)
  have hnil : ∀ st : Stage, pending st = [] → ∀ l ∈ pending st, l ∈ V := by
    intro st hst l hl
    rw [hst] at hl
    simp at hl
  cases e with
  | acquire i =>
    obtain ⟨hst, _, rfl⟩ := crawl_acquire_inv W c s g i hs
    refine stage_change V d c _ i g .fetching hg rfl rfl hin (hnil _ rfl) ?_
    rw [hst]
    show growth d (rank V c g.uri) - 1 + 1 ≤ growth d (rank V c g.uri)
    omega
  | fetch i ret links =>
    obtain ⟨hst, hp, hcase⟩ := crawl_fetch_inv W c s g i ret links hs
    rcases hcase with ⟨_, rfl⟩ | ⟨_, rfl⟩
    · refine stage_change V d c _ i g _ hg rfl rfl hin ?_ ?_
      · intro l hl
        exact hV g.uri hgV l (hp.mem_iff.mp hl)
      · rw [hst]
        have hr := rank_pos V c g.uri hgV
        obtain ⟨q, hq⟩ : ∃ q, rank V c g.uri = q + 1 := ⟨rank V c g.uri - 1, by omega⟩
        rw [hq]
        show 2 + links.length * (1 + growth d (q + 1 - 1)) + 1 ≤ growth d (q + 1) - 1
        have hlen : links.length ≤ d := by
          have := hd g.uri hgV
          have := hp.length_eq
          omega
        have h1 : links.length * (1 + growth d q) ≤ d * (1 + growth d q) :=
          Nat.mul_le_mul_right _ hlen
        have h2 : growth d (q + 1) = 6 + d * (1 + growth d q) := rfl
        simp only [Nat.add_sub_cancel]
        omega
    · refine stage_change V d c _ i g .deferring hg rfl rfl hin (hnil _ rfl) ?_
      rw [hst]
      show 4 + 1 ≤ growth d (rank V c g.uri) - 1
      omega
  | visit i =>
    obtain ⟨page, hcase⟩ := crawl_visit_inv W c s g i hs
    rcases hcase with ⟨hst, rfl⟩ | ⟨link, rest, hst, ⟨hfresh, rfl⟩ | ⟨_, rfl⟩⟩
    · refine stage_change V d c _ i g .releasing hg rfl rfl hin (hnil _ rfl) ?_
      rw [hst]
      show 1 + 1 ≤ 2 + ([] : List GoString).length * (1 + growth d (rank V c g.uri - 1))
      simp
    · rw [hst] at hgP
      have hlinkV : link ∈ V := hgP link (by simp [pending])
      have hrestV : ∀ l ∈ rest, l ∈ V := fun l hl => hgP l (by simp [pending, hl])
      have hsetV : ∀ g1 ∈ c.wg.set i { g with stage := .visiting page rest },
          g1.uri ∈ V ∧ ∀ l ∈ pending g1.stage, l ∈ V := by
        intro g1 hg1
        rcases List.mem_or_eq_of_mem_set hg1 with h5 | h5
        · exact hin g1 h5
        · rw [h5]
          exact ⟨hgV, hrestV⟩
      generalize hsdef : ({ c with
          wg := c.wg.set i { g with stage := .visiting page rest } ++
            [(⟨link, g.uri, .waiting⟩ : Goroutine)]
          Sitemap := mapSet c.Sitemap g.uri page } : Crawler) = s
      have hswg : s.wg = c.wg.set i { g with stage := .visiting page rest } ++
          [(⟨link, g.uri, .waiting⟩ : Goroutine)] := by rw [← hsdef]
      have hkeys : ∀ x, inSitemap s x = (inSitemap c x || decide (x = g.uri)) := by
        intro x
        rw [← hsdef]
        unfold inSitemap
        simp only [mapGet_mapSet]
        by_cases hu : g.uri = x
        · subst hu
          simp
        · have hxu : ¬ x = g.uri := fun h => hu h.symm
          simp [hu, hxu]
      have hmono : ∀ x, inSitemap c x = true → inSitemap s x = true := by
        intro x hx
        rw [hkeys x, hx]
        rfl
      constructor
      · have hA := sum_map_le (weight V d s) (weight V d c)
          (c.wg.set i { g with stage := .visiting page rest })
          (fun g1 hg1 => weight_le V d c s hmono g1 (hsetV g1 hg1).1)
        have hB := sum_map_set (weight V d c) c.wg i g
          { g with stage := .visiting page rest } hg
        have e1 : weight V d c g =
            2 + (rest.length + 1) * (1 + growth d (rank V c g.uri - 1)) := by
          unfold weight
          rw [hst]
          rfl
        have e2 : weight V d c { g with stage := .visiting page rest } =
            2 + rest.length * (1 + growth d (rank V c g.uri - 1)) := rfl
        rw [e1, e2] at hB
        have hchild := child_rank V c s g.uri link hfresh hkeys hgV
        have e3 : weight V d s ⟨link, g.uri, .waiting⟩ = growth d (rank V s link) := rfl
        have hgm := growth_mono d (show rank V s link ≤ rank V c g.uri - 1 by omega)
        have hmul : (rest.length + 1) * (1 + growth d (rank V c g.uri - 1)) =
            rest.length * (1 + growth d (rank V c g.uri - 1)) +
              (1 + growth d (rank V c g.uri - 1)) := by ring
        unfold potential
        rw [hswg]
        simp only [List.map_append, List.sum_append, List.map_cons, List.map_nil,
          List.sum_cons, List.sum_nil, e3]
        omega
      · intro g1 hg1
        rw [hswg] at hg1
        rcases List.mem_append.mp hg1 with h5 | h5
        · exact hsetV g1 h5
        · rw [List.mem_singleton] at h5
          rw [h5]
          exact ⟨hlinkV, hnil _ rfl⟩
    · rw [hst] at hgP
      have hrestV : ∀ l ∈ rest, l ∈ V := fun l hl => hgP l (by simp [pending, hl])
      refine stage_change V d c _ i g (.visiting page rest) hg rfl rfl hin hrestV ?_
      rw [hst]
      show 2 + rest.length * (1 + growth d (rank V c g.uri - 1)) + 1 ≤
        2 + (rest.length + 1) * (1 + growth d (rank V c g.uri - 1))
      have hmul : (rest.length + 1) * (1 + growth d (rank V c g.uri - 1)) =
          rest.length * (1 + growth d (rank V c g.uri - 1)) +
            (1 + growth d (rank V c g.uri - 1)) := by ring
      omega
  | clear i =>
    obtain ⟨hst, rfl⟩ := crawl_clear_inv W c s g i hs
    refine stage_change V d c _ i g .testing hg rfl rfl hin (hnil _ rfl) ?_
    rw [hst]
    show 3 + 1 ≤ 4
    omega
  | test i =>
    obtain ⟨hst, hcase⟩ := crawl_test_inv W c s g i hs
    rcases hcase with ⟨_, rfl⟩ | rfl
    · refine stage_change V d c _ i g .writing hg rfl rfl hin (hnil _ rfl) ?_
      rw [hst]
      show 2 + 1 ≤ 3
      omega
    · refine stage_change V d c _ i g .releasing hg rfl rfl hin (hnil _ rfl) ?_
      rw [hst]
      show 1 + 1 ≤ 3
      omega
  | write i =>
    obtain ⟨hst, rfl⟩ := crawl_write_inv W c s g i hs
    refine stage_change V d c _ i g .releasing hg rfl rfl hin (hnil _ rfl) ?_
    rw [hst]
    show 1 + 1 ≤ 2
    omega
  | release i =>
    obtain ⟨hst, _, rfl⟩ := crawl_release_inv W c s g i hs
    have h1 := sum_map_eraseIdx (weight V d c) c.wg i g hg
    have h2 := stageWeight_pos d (rank V c g.uri) g.stage
    have e1 : weight V d c g = stageWeight d (rank V c g.uri) g.stage := rfl
    constructor
    · show ((c.wg.eraseIdx i).map (weight V d c)).sum + 1 ≤ (c.wg.map (weight V d c)).sum
      omega
    · intro g1 hg1
      exact hin g1 (List.mem_of_mem_eraseIdx hg1)

/-- A schedule is no longer than the drop in potential it causes. -/
theorem run_bound (W : World) (V : List GoString) (d : Nat)
    (hV : ∀ u ∈ V, ∀ v ∈ W.links u, v ∈ V)
    (hd : ∀ u ∈ V, (W.links u).length ≤ d) :
    ∀ (evs : List Event) (c s : Crawler), allIn V c → run W c evs = some s →
      potential V d s + evs.length ≤ potential V d c := by
  intro evs
  induction evs with
  | nil =>
    intro c s _ h
    simp only [run, Option.some.injEq] at h
    subst h
    simp
  | cons e es ih =>
    intro c s hc h
    rw [run] at h
    cases hs : step W c e with
    | none => rw [hs] at h; simp at h
    | some c1 =>
      rw [hs] at h
      obtain ⟨h1, h2⟩ := step_decreases W V d hV hd c e c1 hc hs
      have h3 := ih c1 s h2 h
      simp only [List.length_cons]
      omega

/-- Every outstanding goroutine counts for at least one step. -/
theorem length_le_potential (V : List GoString) (d : Nat) (c : Crawler) :
    c.wg.length ≤ potential V d c := by
  unfold potential
  have h : ∀ l : List Goroutine, l.length ≤ (l.map (weight V d c)).sum := by
    intro l
    induction l with
    | nil => simp
    | cons a t ih =>
      have h1 : 1 ≤ weight V d c a := stageWeight_pos d (rank V c a.uri) a.stage
      simp only [List.map_cons, List.sum_cons, List.length_cons]
      omega
  exact h c.wg

/-- Goroutines that wait for a permit hold none. -/
theorem sum_waiting_zero (new : List Goroutine) (h : ∀ g ∈ new, g.stage = .waiting) :
    (new.map holds).sum = 0 := by
  induction new with
  | nil => rfl
  | cons a t ih =>
    have h1 := holds_waiting a (h a (by simp))
    have h2 := ih (fun g hg => h g (List.mem_cons_of_mem _ hg))
    simp only [List.map_cons, List.sum_cons, h1, h2]

/-- A goroutine past the receive of line 140 holds a permit. -/
theorem busy_pos (c : Crawler) (g : Goroutine) (hg : g ∈ c.wg) (hst : g.stage ≠ .waiting) :
    1 ≤ busy c := by
  unfold busy
  have h : ∀ l : List Goroutine, g ∈ l → 1 ≤ (l.map holds).sum := by
    intro l
    induction l with
    | nil => intro hm; simp at hm
    | cons a t ih =>
      intro hm
      simp only [List.map_cons, List.sum_cons]
      rcases List.mem_cons.mp hm with h1 | h1
      · subst h1
        rw [holds_of_ne g hst]
        omega
      · have := ih h1
        omega
  exact h c.wg hg

/-- No deadlock: while the WaitGroup is not empty, some goroutine can take
a step, provided the permits are balanced and there is at least one. -/
theorem progress (W : World) (n : Nat) (c : Crawler) (hbal : permitsBalanced n c)
    (hn : 1 ≤ n) (hwg : c.wg ≠ []) : ∃ e s, step W c e = some s := by
  obtain ⟨hsum, hcap⟩ := hbal
  by_cases hall : ∀ g ∈ c.wg, g.stage = .waiting
  · have hz : busy c = 0 := sum_waiting_zero c.wg hall
    cases hw : c.wg with
    | nil => exact absurd hw hwg
    | cons g t =>
      have hget : c.wg[0]? = some g := by rw [hw]; simp
      have hst : g.stage = .waiting := hall g (by rw [hw]; simp)
      have hlen : 0 < c.Sem.len := by omega
      have hsome : (step W c (.acquire 0)).isSome = true := by
        simp only [step, Event.idx, hget, Crawler.Crawl]
        rw [if_pos ⟨hst, hlen⟩]
        rfl
      exact ⟨.acquire 0, Option.isSome_iff_exists.mp hsome⟩
  · have hex : ∃ g, g ∈ c.wg ∧ g.stage ≠ .waiting := by
      by_contra hno
      apply hall
      intro g hg
      by_contra hst
      exact hno ⟨g, hg, hst⟩
    obtain ⟨g, hg, hst⟩ := hex
    obtain ⟨i, hget⟩ := List.getElem?_of_mem hg
    have hb := busy_pos c g hg hst
    cases hs : g.stage with
    | waiting => exact absurd hs hst
    | fetching =>
      have hsome : (step W c (.fetch i true (W.links g.uri))).isSome = true := by
        simp only [step, Event.idx, hget, Crawler.Crawl]
        rw [if_pos ⟨hs, List.Perm.refl _⟩]
        split <;> rfl
      exact ⟨_, Option.isSome_iff_exists.mp hsome⟩
    | visiting page rest =>
      have hsome : (step W c (.visit i)).isSome = true := by
        simp only [step, Event.idx, hget, Crawler.Crawl, hs]
        cases rest with
        | nil => rfl
        | cons link more =>
          simp only []
          split <;> rfl
      exact ⟨_, Option.isSome_iff_exists.mp hsome⟩
    | deferring =>
      have hsome : (step W c (.clear i)).isSome = true := by
        simp only [step, Event.idx, hget, Crawler.Crawl]
        rw [if_pos hs]
        rfl
      exact ⟨_, Option.isSome_iff_exists.mp hsome⟩
    | testing =>
      have hsome : (step W c (.test i)).isSome = true := by
        simp only [step, Event.idx, hget, Crawler.Crawl]
        rw [if_pos hs]
        split <;> rfl
      exact ⟨_, Option.isSome_iff_exists.mp hsome⟩
    | writing =>
      have hsome : (step W c (.write i)).isSome = true := by
        simp only [step, Event.idx, hget, Crawler.Crawl]
        rw [if_pos hs]
        rfl
      exact ⟨_, Option.isSome_iff_exists.mp hsome⟩
    | releasing =>
      have hlen : c.Sem.len < c.Sem.cap := by omega
      have hsome : (step W c (.release i)).isSome = true := by
        simp only [step, Event.idx, hget, Crawler.Crawl]
        rw [if_pos ⟨hs, hlen⟩]
        rfl
      exact ⟨_, Option.isSome_iff_exists.mp hsome⟩

/-- From a balanced state inside `V`, some schedule empties the WaitGroup. -/
theorem completes (W : World) (V : List GoString) (d n : Nat)
    (hV : ∀ u ∈ V, ∀ v ∈ W.links u, v ∈ V)
    (hd : ∀ u ∈ V, (W.links u).length ≤ d) (hn : 1 ≤ n) :
    ∀ (k : Nat) (c : Crawler), potential V d c ≤ k → allIn V c → permitsBalanced n c →
      ∃ evs s, run W c evs = some s ∧ s.wg = [] := by
  intro k
  induction k with
  | zero =>
    intro c hk hin hbal
    by_cases hwg : c.wg = []
    · exact ⟨[], c, rfl, hwg⟩
    · obtain ⟨e, s, hs⟩ := progress W n c hbal hn hwg
      have := (step_decreases W V d hV hd c e s hin hs).1
      omega
  | succ m ih =>
    intro c hk hin hbal
    by_cases hwg : c.wg = []
    · exact ⟨[], c, rfl, hwg⟩
    · obtain ⟨e, s, hs⟩ := progress W n c hbal hn hwg
      obtain ⟨h1, h2⟩ := step_decreases W V d hV hd c e s hin hs
      obtain ⟨evs, s1, h3, h4⟩ := ih s (by omega) h2 (permitsBalanced_step W n c e s hbal hs)
      exact ⟨e :: evs, s1, run_append W evs c s e s1 hs h3, h4⟩

/-! ## `Sitemap` and `Deferred` in the main pass with one permit -/

/-- A goroutine of the list counts for no more than the list. -/
theorem holds_le_sum (g : Goroutine) :
    ∀ l : List Goroutine, g ∈ l → holds g ≤ (l.map holds).sum := by
  intro l
  induction l with
  | nil => intro hm; simp at hm
  | cons a t ih =>
    intro hm
    simp only [List.map_cons, List.sum_cons]
    rcases List.mem_cons.mp hm with h1 | h1
    · subst h1
      omega
    · have := ih h1
      omega

/-- Two different goroutines past the receive of line 140 hold two
permits. -/
theorem two_busy (g g1 : Goroutine) (hne : g ≠ g1) (hg : g.stage ≠ .waiting)
    (hg1 : g1.stage ≠ .waiting) :
    ∀ l : List Goroutine, g ∈ l → g1 ∈ l → 2 ≤ (l.map holds).sum := by
  intro l
  induction l with
  | nil => intro hm; simp at hm
  | cons a t ih =>
    intro hm hm1
    simp only [List.map_cons, List.sum_cons]
    have e := holds_of_ne g hg
    have e1 := holds_of_ne g1 hg1
    rcases List.mem_cons.mp hm with h1 | h1
    · rcases List.mem_cons.mp hm1 with h2 | h2
      · exact absurd (h1.trans h2.symm) hne
      · have := holds_le_sum g1 t h2
        rw [← h1]
        omega
    · rcases List.mem_cons.mp hm1 with h2 | h2
      · have := holds_le_sum g t h1
        rw [← h2]
        omega
      · have := ih h1 h2
        omega

/-- A step that only moves goroutine `i` to the stage `st`, leaving the
maps and `Running` alone, keeps `mapsInv` when `st` meets what `mapsInv`
asks of it. -/
theorem mapsInv_stage_change (c s : Crawler) (i : Nat) (g : Goroutine) (st : Stage)
    (hwg : s.wg = c.wg.set i { g with stage := st })
    (hR : s.Running = c.Running) (hD : s.Deferred = c.Deferred)
    (hS : s.Sitemap = c.Sitemap) (hinv : mapsInv c)
    (h4 : isVisiting st = true → c.Running = true)
    (h5 : st = .writing → inSitemap c g.uri = false)
    (h6 : st = .testing ∨ st = .writing → c.Running = false) : mapsInv s := by
  obtain ⟨i2, i3, i4, i5, i6⟩ := hinv
  have hinS : ∀ x, inSitemap s x = inSitemap c x := by
    intro x
    unfold inSitemap
    rw [hS]
  refine ⟨?_, ?_, ?_, ?_, ?_⟩
  · rw [hR, hD]
    exact i2
  · rw [hS, hD]
    exact i3
  · intro g1 hg1 hv
    rw [hR]
    rw [hwg] at hg1
    rcases List.mem_or_eq_of_mem_set hg1 with h | h
    · exact i4 g1 h hv
    · rw [h] at hv
      exact h4 hv
  · intro g1 hg1 hw
    rw [hinS]
    rw [hwg] at hg1
    rcases List.mem_or_eq_of_mem_set hg1 with h | h
    · exact i5 g1 h hw
    · rw [h] at hw ⊢
      exact h5 hw
  · intro g1 hg1 hw
    rw [hR]
    rw [hwg] at hg1
    rcases List.mem_or_eq_of_mem_set hg1 with h | h
    · exact i6 g1 h hw
    · rw [h] at hw
      exact h6 hw

/-- With at most one goroutine past the receive of line 140, every step
keeps `mapsInv`. -/
theorem mapsInv_step (W : World) (c : Crawler) (e : Event) (s : Crawler)
    (hone : busy c ≤ 1) (hinv : mapsInv c) (h : step W c e = some s) : mapsInv s := by
  obtain ⟨g, hg, hs⟩ := step_inv W c s e h
  have hgmem : g ∈ c.wg := List.mem_iff_getElem?.mpr ⟨e.idx, hg⟩
  have hinv0 := hinv
  obtain ⟨i2, i3, i4, i5, i6⟩ := hinv
  cases e with
  | acquire i =>
    obtain ⟨_, _, rfl⟩ := crawl_acquire_inv W c s g i hs
    exact mapsInv_stage_change c _ i g .fetching rfl rfl rfl rfl hinv0
      (by simp [isVisiting]) (by simp) (by simp)
  | fetch i ret links =>
    obtain ⟨_, _, hcase⟩ := crawl_fetch_inv W c s g i ret links hs
    rcases hcase with ⟨hb, rfl⟩ | ⟨_, rfl⟩
    · refine mapsInv_stage_change c _ i g _ rfl rfl rfl rfl hinv0 ?_ (by simp) (by simp)
      intro _
      cases hR : c.Running with
      | true => rfl
      | false => rw [hR] at hb; simp at hb
    · exact mapsInv_stage_change c _ i g .deferring rfl rfl rfl rfl hinv0
        (by simp [isVisiting]) (by simp) (by simp)
  | visit i =>
    obtain ⟨page, hcase⟩ := crawl_visit_inv W c s g i hs
    rcases hcase with ⟨hst, rfl⟩ | ⟨link, rest, hst, ⟨hfresh, rfl⟩ | ⟨_, rfl⟩⟩
    · exact mapsInv_stage_change c _ i g .releasing rfl rfl rfl rfl hinv0
        (by simp [isVisiting]) (by simp) (by simp)
    · have hrun : c.Running = true := i4 g hgmem (by rw [hst]; rfl)
      have hempty : c.Deferred = [] := i2 hrun
      refine ⟨fun _ => hempty, ?_, ?_, ?_, ?_⟩
      · intro u _
        show u ∉ mapKeys c.Deferred
        rw [hempty]
        simp [mapKeys]
      · intro _ _ _
        exact hrun
      · intro g1 hg1 hw
        have hg1 : g1 ∈ c.wg.set i { g with stage := .visiting page rest } ++
            [(⟨link, g.uri, .waiting⟩ : Goroutine)] := hg1
        have hold : g1 ∈ c.wg := by
          rcases List.mem_append.mp hg1 with h5 | h5
          · rcases List.mem_or_eq_of_mem_set h5 with h6 | h6
            · exact h6
            · rw [h6] at hw
              simp at hw
          · rw [List.mem_singleton] at h5
            rw [h5] at hw
            simp at hw
        have := i6 g1 hold (Or.inr hw)
        rw [hrun] at this
        simp at this
      · intro g1 hg1 hw
        have hg1 : g1 ∈ c.wg.set i { g with stage := .visiting page rest } ++
            [(⟨link, g.uri, .waiting⟩ : Goroutine)] := hg1
        have hold : g1 ∈ c.wg := by
          rcases List.mem_append.mp hg1 with h5 | h5
          · rcases List.mem_or_eq_of_mem_set h5 with h6 | h6
            · exact h6
            · rw [h6] at hw
              simp at hw
          · rw [List.mem_singleton] at h5
            rw [h5] at hw
            simp at hw
        exact i6 g1 hold hw
    · exact mapsInv_stage_change c _ i g _ rfl rfl rfl rfl hinv0
        (fun _ => i4 g hgmem (by rw [hst]; rfl)) (by simp) (by simp)
  | clear i =>
    obtain ⟨hst, rfl⟩ := crawl_clear_inv W c s g i hs
    have hgne : g.stage ≠ .waiting := by rw [hst]; simp
    have hnovis : ∀ g1 ∈ c.wg, isVisiting g1.stage = true → False := by
      intro g1 hg1 hv
      have hne : g ≠ g1 := by
        intro heq
        rw [← heq, hst] at hv
        simp [isVisiting] at hv
      have hg1ne : g1.stage ≠ .waiting := by
        intro hw
        rw [hw] at hv
        simp [isVisiting] at hv
      have := two_busy g g1 hne hgne hg1ne c.wg hgmem hg1
      unfold busy at hone
      omega
    refine ⟨?_, i3, ?_, ?_, ?_⟩
    · intro hR
      exact absurd hR (by simp)
    · intro g1 hg1 hv
      have hg1 : g1 ∈ c.wg.set i { g with stage := .testing } := hg1
      rcases List.mem_or_eq_of_mem_set hg1 with h5 | h5
      · exact absurd (hnovis g1 h5 hv) id
      · rw [h5] at hv
        simp [isVisiting] at hv
    · intro g1 hg1 hw
      have hg1 : g1 ∈ c.wg.set i { g with stage := .testing } := hg1
      rcases List.mem_or_eq_of_mem_set hg1 with h5 | h5
      · exact i5 g1 h5 hw
      · rw [h5] at hw
        simp at hw
    · intro _ _ _
      rfl
  | test i =>
    obtain ⟨hst, hcase⟩ := crawl_test_inv W c s g i hs
    rcases hcase with ⟨hfresh, rfl⟩ | rfl
    · exact mapsInv_stage_change c _ i g .writing rfl rfl rfl rfl hinv0
        (by simp [isVisiting]) (fun _ => hfresh) (fun _ => i6 g hgmem (Or.inl hst))
    · exact mapsInv_stage_change c _ i g .releasing rfl rfl rfl rfl hinv0
        (by simp [isVisiting]) (by simp) (by simp)
  | write i =>
    obtain ⟨hst, rfl⟩ := crawl_write_inv W c s g i hs
    have hrun : c.Running = false := i6 g hgmem (Or.inr hst)
    have hfresh : inSitemap c g.uri = false := i5 g hgmem hst
    have hsub : ∀ g1 ∈ c.wg.set i { g with stage := .releasing },
        g1 ∈ c.wg ∨ g1.stage = .releasing := by
      intro g1 hg1
      rcases List.mem_or_eq_of_mem_set hg1 with h5 | h5
      · exact Or.inl h5
      · exact Or.inr (by rw [h5])
    refine ⟨?_, ?_, ?_, ?_, ?_⟩
    · intro hR
      have hR : c.Running = true := hR
      rw [hrun] at hR
      simp at hR
    · intro u hu hud
      have hu : u ∈ mapKeys c.Sitemap := hu
      have hud : u ∈ mapKeys (mapSet c.Deferred g.uri g.parent) := hud
      rw [mem_mapKeys_iff, mapGet_mapSet] at hud
      by_cases huri : g.uri = u
      · subst huri
        have := (mem_mapKeys_iff c.Sitemap g.uri).mp hu
        unfold inSitemap at hfresh
        rw [hfresh] at this
        simp at this
      · rw [if_neg huri] at hud
        exact i3 u hu ((mem_mapKeys_iff _ _).mpr hud)
    · intro g1 hg1 hv
      rcases hsub g1 hg1 with h5 | h5
      · exact i4 g1 h5 hv
      · rw [h5] at hv
        simp [isVisiting] at hv
    · intro g1 hg1 hw
      rcases hsub g1 hg1 with h5 | h5
      · exact i5 g1 h5 hw
      · rw [h5] at hw
        simp at hw
    · intro g1 hg1 hw
      rcases hsub g1 hg1 with h5 | h5
      · exact i6 g1 h5 hw
      · rw [h5] at hw
        simp at hw
  | release i =>
    obtain ⟨_, _, rfl⟩ := crawl_release_inv W c s g i hs
    exact ⟨i2, i3, fun g1 hg1 => i4 g1 (List.mem_of_mem_eraseIdx hg1),
      fun g1 hg1 => i5 g1 (List.mem_of_mem_eraseIdx hg1),
      fun g1 hg1 => i6 g1 (List.mem_of_mem_eraseIdx hg1)⟩

/-! ## `GetUri`: the claims -/

/-- C10 (counterexample): when the transport answers 404 (or 500), `GetUri`
returns true. -/
theorem getUri_true_on_404 :
    GetUri okNewRequest (statusDo 404) "http://www.example.com/missing".toList =
      .ok (true, some { StatusCode := 404, Body := [] }) ∧
    GetUri okNewRequest (statusDo 500) "http://www.example.com/missing".toList =
      .ok (true, some { StatusCode := 500, Body := [] }) :=
  ⟨rfl, rfl⟩

/-- C10 (amended): once the request is constructed, `GetUri` returns false
whenever the transport returns an error, and returns true whenever the
transport returns no error, whatever the status code of the response. -/
theorem getUri_ok_iff_no_transport_error
    (NewRequest : GoString → GoString → Option Request × Option GoString)
    (Do : Request → Option Response × Option GoString) (uri : GoString) (req : Request)
    (hreq : NewRequest "GET".toList uri = (some req, none)) :
    (∀ e, (Do (sentRequest req)).2 = some e → GetUri NewRequest Do uri = .ok (false, none)) ∧
    (∀ res : Response, Do (sentRequest req) = (some res, none) →
      GetUri NewRequest Do uri = .ok (true, some res)) := by
  constructor
  · intro e he
    unfold GetUri
    rw [hreq]
    simp only [Option.isSome_none, Bool.false_eq_true, if_false]
    rcases hd : Do (sentRequest req) with ⟨res, resErr⟩
    rw [hd] at he
    simp only at he
    subst he
    simp
  · intro res hres
    unfold GetUri
    rw [hreq]
    simp only [Option.isSome_none, Bool.false_eq_true, if_false]
    rw [hres]
    simp

/-- C10 (witness): the amended statement at a request that is constructed,
for a failing transport and for one that answers 500. -/
theorem getUri_ok_iff_no_transport_error_witness :
    GetUri okNewRequest failingDo "www.google.com".toList = .ok (false, none) ∧
    GetUri okNewRequest (statusDo 500) "http://www.google.com".toList =
      .ok (true, some { StatusCode := 500, Body := [] }) :=
  ⟨(getUri_ok_iff_no_transport_error okNewRequest failingDo "www.google.com".toList
      { Method := "GET".toList, URL := "www.google.com".toList, Close := false, Header := [] }
      rfl).1 "unsupported protocol scheme".toList rfl,
   (getUri_ok_iff_no_transport_error okNewRequest (statusDo 500) "http://www.google.com".toList
      { Method := "GET".toList, URL := "http://www.google.com".toList, Close := false,
        Header := [] }
      rfl).2 { StatusCode := 500, Body := [] } rfl⟩

/-! ## The engine at sample inputs -/

/-- C1 (the code at the failing input): on the cycle A -> B -> C -> A with
root A and every fetch succeeding, once every goroutine has run to
completion the keys of `Sitemap` are A and B.  Page C, whose only link A is
already a key, is fetched but never stored: line 153 stores the page only
inside the test of line 149.  (`SameDomain` accepts A, B and C for the root
A, so these are links that `ExtractLinks` keeps.) -/
theorem cycle_sitemap_lacks_last_page :
    ((Crawler.new urlA 1).StartWait cycleWorld cycleSchedule).map
      (fun s => (mapKeys s.Sitemap, s.wg, decide (urlC ∈ mapKeys s.Sitemap))) =
      some ([urlA, urlB], [], false) ∧
    (Crawler.new urlA 1).SameDomain urlA = some true ∧
    (Crawler.new urlA 1).SameDomain urlB = some true ∧
    (Crawler.new urlA 1).SameDomain urlC = some true := by
  decide

/-- C3 (the code at the failing input): A links to B and C, and B links to
C.  After A and then B have run, the WaitGroup holds two goroutines for C,
one started by A and one by B: line 153 marks the crawling page `uri`, not
the `link` it starts a goroutine for. -/
theorem shared_link_spawned_twice :
    (match (Crawler.new urlA 2).Start with
      | .error _ => none
      | .ok c => (run sharedLinkWorld c (oneUnit [urlB, urlC] ++ oneUnit [urlC])).map
          (fun s => s.wg)) =
      some [⟨urlC, urlA, .waiting⟩, ⟨urlC, urlB, .waiting⟩] := by
  decide

/-- C4 (counterexample), two runs that leave a URL in both maps.

The retry pass: on the cycle with root A and one permit, A is fetched, the
fetch of B fails in the main pass and succeeds in the retry pass; after
`crawlDeferred`, B is a key of `Sitemap` and of `Deferred`, which nothing
ever deletes from.

The main pass with two permits: on `raceWorld` under `raceSchedule`, one
goroutine for C passes line 143 while `Running` is set, a second goroutine
for C then fails its fetch and defers C, and the first then stores C at
line 153; when `Start` returns, C is a key of both maps. -/
theorem url_in_both_maps :
    (((Crawler.new urlA 1).StartWait cycleWorld
        (oneUnit [urlB] ++ deferredUnit false [urlC])).bind
      (fun s => s.crawlDeferred cycleWorld [oneUnit [urlC] ++ oneUnit [urlA]])).map
      (fun s => (mapKeys s.Sitemap, mapKeys s.Deferred, s.wg)) =
      some ([urlA, urlB], [urlB], []) ∧
    ((Crawler.new urlA 2).StartWait raceWorld raceSchedule).map
      (fun s => (mapKeys s.Sitemap, mapKeys s.Deferred, s.wg)) =
      some ([urlA, urlB, urlC], [urlC, urlD], []) := by
  decide

/-- C8 (the code at the failing input): with `MaxRoutines` 1 and `Root`
unset, `Start` does not panic: it fills the channel and starts
`Crawl("", "")`, which can take its steps and attempt the fetch.  Only a
zero `MaxRoutines` reaches the panic of line 172. -/
theorem start_accepts_unset_root :
    (Crawler.new [] 1).Start =
      .ok { Sitemap := [], Deferred := [], Sem := ⟨1, 1⟩, Root := [], MaxRoutines := 1,
            wg := [⟨[], [], .waiting⟩], Running := true } ∧
    ((Crawler.new [] 1).StartWait cycleWorld (deferredUnit false [])).map
      (fun s => mapKeys s.Deferred) = some [[]] ∧
    (Crawler.new [] 0).Start = .error "Crawler fields not set." := by
  refine ⟨rfl, ?_, rfl⟩
  decide

/-! ## The engine: the claims -/

/-- C2: for every link graph `W` over a finite set `V` of URLs (closed under
the links of its pages, the root in it) and every outcome of every fetch,
the main traversal that `Start` begins terminates.  Every schedule from the
state after `Start` has at most `N` steps, the steps taken plus the
goroutines still outstanding never exceed `N` (so finitely many goroutines
are ever started), a state with goroutines outstanding always has a step to
take, and every schedule can be run on to a state with none outstanding. -/
theorem start_terminates (W : World) (V : List GoString) (c : Crawler)
    (hwg : c.wg = []) (hn : 1 ≤ c.MaxRoutines) (hroot : c.Root ∈ V)
    (hV : ∀ u ∈ V, ∀ v ∈ W.links u, v ∈ V) :
    ∃ s0 N, c.Start = .ok s0 ∧
      ∀ evs s, run W s0 evs = some s →
        evs.length + s.wg.length ≤ N ∧
        (s.wg ≠ [] → ∃ e s1, step W s e = some s1) ∧
        (∃ more s1, run W s more = some s1 ∧ s1.wg = []) := by
  have h0 := start_ok c hwg hn
  have hd := degree_bound W V
  have hn1 : 1 ≤ c.MaxRoutines.toNat := by omega
  refine ⟨started c, potential V (degree W V) (started c), h0, ?_⟩
  have hin0 : allIn V (started c) := by
    intro g hg
    have hg : g ∈ [(⟨c.Root, [], .waiting⟩ : Goroutine)] := hg
    rw [List.mem_singleton] at hg
    rw [hg]
    refine ⟨hroot, ?_⟩
    intro l hl
    simp [pending] at hl
  have hbal0 := permitsBalanced_start c hwg hn _ h0
  intro evs s hrun
  have hb := run_bound W V (degree W V) hV hd evs _ s hin0 hrun
  have hin : allIn V s :=
    run_preserves W (fun x => allIn V x)
      (fun x e y hx hs => (step_decreases W V (degree W V) hV hd x e y hx hs).2)
      evs _ s hin0 hrun
  have hbal : permitsBalanced c.MaxRoutines.toNat s :=
    run_preserves W (fun x => permitsBalanced c.MaxRoutines.toNat x)
      (fun x e y hx hs => permitsBalanced_step W _ x e y hx hs) evs _ s hbal0 hrun
  have hl := length_le_potential V (degree W V) s
  refine ⟨by omega, fun hne => progress W _ s hbal hn1 hne, ?_⟩
  exact completes W V (degree W V) _ hV hd hn1 _ s (le_refl _) hin hbal

/-- C2 (witness): the cycle A -> B -> C -> A with root A and one permit.
The schedule that crawls A, B and C is one of the schedules the bound
covers, and it ends with no goroutine outstanding. -/
theorem start_terminates_witness :
    ∃ N s, run cycleWorld (started (Crawler.new urlA 1)) cycleSchedule = some s ∧
      s.wg = [] ∧ cycleSchedule.length + s.wg.length ≤ N ∧
      ∀ evs s1, run cycleWorld (started (Crawler.new urlA 1)) evs = some s1 →
        evs.length + s1.wg.length ≤ N := by
  obtain ⟨s0, N, h0, hall⟩ :=
    start_terminates cycleWorld [urlA, urlB, urlC] (Crawler.new urlA 1) rfl (by decide)
      (by decide) (by decide)
  have h1 := start_ok (Crawler.new urlA 1) rfl (by decide)
  have hs0 := Except.ok.inj (h0.symm.trans h1)
  subst hs0
  have hsome : ((run cycleWorld (started (Crawler.new urlA 1)) cycleSchedule).bind
      (fun s => if s.wg = [] then some s else none)).isSome = true := by decide
  obtain ⟨s, hs⟩ := Option.isSome_iff_exists.mp hsome
  obtain ⟨s1, hs1, hs2⟩ := Option.bind_eq_some.mp hs
  have hwg : s1.wg = [] := by
    by_contra hne
    rw [if_neg hne] at hs2
    simp at hs2
  exact ⟨N, s1, hs1, hwg, (hall cycleSchedule s1 hs1).1, fun evs s2 h => (hall evs s2 h).1⟩

/-- C9: no permit leak.  A goroutine takes one permit at the receive of
line 140, leaves the channel as it is at every step of lines 141-165
whichever branch it takes, and gives one permit back at the send of line
166.  So from `Start` with `MaxRoutines` at least 1, in every state the
permits in the channel plus the goroutines holding one number
`MaxRoutines`, and once every goroutine has returned `len(c.Sem)` equals
`MaxRoutines`. -/
theorem permits_restored (W : World) (c : Crawler) (hwg : c.wg = [])
    (hn : 1 ≤ c.MaxRoutines) :
    (∃ s0, c.Start = .ok s0 ∧
      ∀ evs s, run W s0 evs = some s →
        s.Sem.len + busy s = c.MaxRoutines.toNat ∧
        (s.wg = [] → (s.Sem.len : Int) = c.MaxRoutines)) ∧
    (∀ (x y : Crawler) (i : Nat), step W x (.acquire i) = some y → y.Sem.len + 1 = x.Sem.len) ∧
    (∀ (x y : Crawler) (e : Event), step W x e = some y →
      (∀ i, e ≠ .acquire i) → (∀ i, e ≠ .release i) → y.Sem.len = x.Sem.len) ∧
    (∀ (x y : Crawler) (i : Nat), step W x (.release i) = some y → y.Sem.len = x.Sem.len + 1) := by
  refine ⟨⟨started c, start_ok c hwg hn, ?_⟩, ?_, ?_, ?_⟩
  · intro evs s hrun
    have hbal0 := permitsBalanced_start c hwg hn _ (start_ok c hwg hn)
    have hbal : permitsBalanced c.MaxRoutines.toNat s :=
      run_preserves W (fun x => permitsBalanced c.MaxRoutines.toNat x)
        (fun x e y hx hs => permitsBalanced_step W _ x e y hx hs) evs _ s hbal0 hrun
    refine ⟨hbal.1, ?_⟩
    intro hempty
    have hz : busy s = 0 := by
      unfold busy
      rw [hempty]
      rfl
    have := hbal.1
    omega
  · intro x y i h
    obtain ⟨g, _, hs⟩ := step_inv W x y _ h
    obtain ⟨_, hlen, rfl⟩ := crawl_acquire_inv W x y g i hs
    show x.Sem.len - 1 + 1 = x.Sem.len
    omega
  · intro x y e h hna hnr
    obtain ⟨g, _, hs⟩ := step_inv W x y e h
    cases e with
    | acquire i => exact absurd rfl (hna i)
    | release i => exact absurd rfl (hnr i)
    | fetch i ret links =>
      obtain ⟨_, _, hcase⟩ := crawl_fetch_inv W x y g i ret links hs
      rcases hcase with ⟨_, rfl⟩ | ⟨_, rfl⟩ <;> rfl
    | visit i =>
      obtain ⟨page, hcase⟩ := crawl_visit_inv W x y g i hs
      rcases hcase with ⟨_, rfl⟩ | ⟨link, rest, _, ⟨_, rfl⟩ | ⟨_, rfl⟩⟩ <;> rfl
    | clear i =>
      obtain ⟨_, rfl⟩ := crawl_clear_inv W x y g i hs
      rfl
    | test i =>
      obtain ⟨_, hcase⟩ := crawl_test_inv W x y g i hs
      rcases hcase with ⟨_, rfl⟩ | rfl <;> rfl
    | write i =>
      obtain ⟨_, rfl⟩ := crawl_write_inv W x y g i hs
      rfl
  · intro x y i h
    obtain ⟨g, _, hs⟩ := step_inv W x y _ h
    obtain ⟨_, _, rfl⟩ := crawl_release_inv W x y g i hs
    rfl

/-- C9 (witness): the run of `TestCrawlerStop`, 500 permits, on the cycle:
after the schedule that crawls A, B and C the WaitGroup is empty and the
channel holds 500 permits. -/
theorem permits_restored_witness :
    ∃ s0, (Crawler.new urlA 500).Start = .ok s0 ∧
      ∃ s, run cycleWorld s0 cycleSchedule = some s ∧ s.wg = [] ∧ (s.Sem.len : Int) = 500 := by
  obtain ⟨s0, h0, hall⟩ := (permits_restored cycleWorld (Crawler.new urlA 500) rfl (by decide)).1
  have h1 := start_ok (Crawler.new urlA 500) rfl (by decide)
  have hs0 := Except.ok.inj (h0.symm.trans h1)
  subst hs0
  have hsome : ((run cycleWorld (started (Crawler.new urlA 500)) cycleSchedule).bind
      (fun s => if s.wg = [] then some s else none)).isSome = true := by decide
  obtain ⟨s, hs⟩ := Option.isSome_iff_exists.mp hsome
  obtain ⟨s1, hs1, hs2⟩ := Option.bind_eq_some.mp hs
  have hwg : s1.wg = [] := by
    by_contra hne
    rw [if_neg hne] at hs2
    simp at hs2
  exact ⟨_, h1, s1, hs1, hwg, (hall cycleSchedule s1 hs1).2 hwg⟩

/-- C4 (amended): with one permit (`MaxRoutines` = 1), so that no two
goroutines are between the receive of line 140 and the send of line 166 at
once, and starting with `Deferred` empty: in every state reachable through
`Start`, the main pass, under any order of the steps of the goroutines and
any outcome of every fetch, no URL is a key of `Sitemap` and of `Deferred`
at once. -/
theorem serial_main_pass_disjoint (W : World) (c : Crawler) (hdef : c.Deferred = [])
    (hwg : c.wg = []) (hone : c.MaxRoutines = 1)
    (s0 : Crawler) (h0 : c.Start = .ok s0) (evs : List Event) (s : Crawler)
    (hrun : run W s0 evs = some s) :
    ∀ u, ¬ (u ∈ mapKeys s.Sitemap ∧ u ∈ mapKeys s.Deferred) := by
  have hn : 1 ≤ c.MaxRoutines := by omega
  have hbal0 := permitsBalanced_start c hwg hn s0 h0
  have hone1 : c.MaxRoutines.toNat = 1 := by rw [hone]; rfl
  rw [hone1] at hbal0
  have hs0 := Except.ok.inj (h0.symm.trans (start_ok c hwg hn))
  have hm0 : mapsInv s0 := by
    rw [hs0]
    refine ⟨fun _ => hdef, ?_, ?_, ?_, ?_⟩
    · intro u _
      show u ∉ mapKeys c.Deferred
      rw [hdef]
      simp [mapKeys]
    · intro g hg hv
      have hg : g ∈ [(⟨c.Root, [], .waiting⟩ : Goroutine)] := hg
      rw [List.mem_singleton] at hg
      rw [hg] at hv
      simp [isVisiting] at hv
    · intro g hg hw
      have hg : g ∈ [(⟨c.Root, [], .waiting⟩ : Goroutine)] := hg
      rw [List.mem_singleton] at hg
      rw [hg] at hw
      simp at hw
    · intro g hg hw
      have hg : g ∈ [(⟨c.Root, [], .waiting⟩ : Goroutine)] := hg
      rw [List.mem_singleton] at hg
      rw [hg] at hw
      simp at hw
  have hboth : permitsBalanced 1 s ∧ mapsInv s :=
    run_preserves W (fun x => permitsBalanced 1 x ∧ mapsInv x)
      (fun x e y hx hs =>
        ⟨permitsBalanced_step W 1 x e y hx.1 hs,
          mapsInv_step W x e y (by have := hx.1.1; omega) hx.2 hs⟩)
      evs s0 s ⟨hbal0, hm0⟩ hrun
  intro u hu
  exact hboth.2.2.1 u hu.1 hu.2

/-- C4 (witness): the main pass on the cycle with one permit in which the
fetch of B fails: B is deferred, and is not a key of `Sitemap`. -/
theorem serial_main_pass_disjoint_witness :
    ∃ s0 s, (Crawler.new urlA 1).Start = .ok s0 ∧
      run cycleWorld s0 (oneUnit [urlB] ++ deferredUnit false [urlC]) = some s ∧
      urlB ∈ mapKeys s.Deferred ∧
      ∀ u, ¬ (u ∈ mapKeys s.Sitemap ∧ u ∈ mapKeys s.Deferred) := by
  have h1 := start_ok (Crawler.new urlA 1) rfl (by decide)
  have hsome : ((run cycleWorld (started (Crawler.new urlA 1))
      (oneUnit [urlB] ++ deferredUnit false [urlC])).bind
      (fun s => if urlB ∈ mapKeys s.Deferred then some s else none)).isSome = true := by decide
  obtain ⟨s, hs⟩ := Option.isSome_iff_exists.mp hsome
  obtain ⟨s1, hs1, hs2⟩ := Option.bind_eq_some.mp hs
  have hB : urlB ∈ mapKeys s1.Deferred := by
    by_contra hne
    rw [if_neg hne] at hs2
    simp at hs2
  exact ⟨_, s1, h1, hs1, hB,
    serial_main_pass_disjoint cycleWorld _ rfl rfl rfl _ h1 _ s1 hs1⟩

end WebCrawler
